import Mathlib

/-!
# Keysym to keycode conversion (keymaps.c)

A shallow embedding of `src/keymaps.c`:

* `get_keysym`, `add_to_key_range`, `parse_keyboard_layout`,
  `init_keyboard_layout`: the layout-file parser;
* `keysym2scancode`: the static translator (the active `#else` branch);
* `keycode_is_keypad`, `keysym_is_numlock`: the range queries.

C `int` values are integers (`Int`).  An array read outside its bounds has no
defined value in C; table lookups therefore return an `Option`.
-/

namespace Keymaps

/-! ## The translator: `keysym2scancode` -/

/-- The `KEY_*` macros of `linux_keycodes.h` that `keysym2scancode` names.  The header
is not among the sources, so the values are parameters of the embedding. -/
structure KeyCodes where
  KEY_1 : Int
  KEY_HOME : Int
  KEY_LEFT : Int
  KEY_UP : Int
  KEY_RIGHT : Int
  KEY_DOWN : Int
  KEY_SOFT1 : Int
  KEY_SOFT2 : Int
  KEY_END : Int
  KEY_LEFTSHIFT : Int
  KEY_RIGHTSHIFT : Int
  KEY_COMPOSE : Int
  KEY_CAPSLOCK : Int
  KEY_LEFTMETA : Int
  KEY_RIGHTMETA : Int
  KEY_LEFTALT : Int
  KEY_RIGHTALT : Int
  KEY_A : Int
  KEY_B : Int
  KEY_C : Int
  KEY_D : Int
  KEY_E : Int
  KEY_F : Int
  KEY_G : Int
  KEY_H : Int
  KEY_I : Int
  KEY_J : Int
  KEY_K : Int
  KEY_L : Int
  KEY_M : Int
  KEY_N : Int
  KEY_O : Int
  KEY_P : Int
  KEY_Q : Int
  KEY_R : Int
  KEY_S : Int
  KEY_T : Int
  KEY_U : Int
  KEY_V : Int
  KEY_W : Int
  KEY_X : Int
  KEY_Y : Int
  KEY_Z : Int
  KEY_F1 : Int
  KEY_F2 : Int
  KEY_F3 : Int
  KEY_F4 : Int
  KEY_F5 : Int
  KEY_F6 : Int
  KEY_F7 : Int
  KEY_F8 : Int
  KEY_F9 : Int
  KEY_F10 : Int
  KEY_F11 : Int
  KEY_F12 : Int
  KEY_F13 : Int
  KEY_F14 : Int
  KEY_F15 : Int
  KEY_F16 : Int
  KEY_F17 : Int
  KEY_F18 : Int
  KEY_F19 : Int
  KEY_F20 : Int
  KEY_F21 : Int
  KEY_F22 : Int
  KEY_F23 : Int
  KEY_F24 : Int
  KEY_BACKSPACE : Int
  KEY_TAB : Int
  KEY_LINEFEED : Int
  KEY_CLEAR : Int
  KEY_ENTER : Int
  KEY_PAUSE : Int
  KEY_SCROLLLOCK : Int
  KEY_SYSRQ : Int
  KEY_CENTER : Int
  KEY_SPACE : Int
  KEY_SHARP : Int
  KEY_COMMA : Int
  KEY_DOT : Int
  KEY_SLASH : Int
  KEY_EMAIL : Int
  KEY_BACK : Int
  KEY_DELETE : Int
  KEY_STAR : Int
  KEY_VOLUMEUP : Int
  KEY_VOLUMEDOWN : Int

/-- Conversion of an `int` initialiser to `unsigned short`, the element type of the
static `map[]` tables: the value modulo `2^16`, with the non-negative residue. -/
def ushort (v : Int) : Int := v % 65536

/-- The read `map[i]` of a static table with an `int` index: `none` when the index
is outside the table (no defined value in C). -/
def map_at (map : List Int) (i : Int) : Option Int :=
  if i < 0 then none else map[i.toNat]?

/-- The `map[]` of the band `0xFF50 .. 0xFF58` (lines 210-214). -/
def map_cursor (K : KeyCodes) : List Int :=
  [ushort K.KEY_HOME, ushort K.KEY_LEFT, ushort K.KEY_UP, ushort K.KEY_RIGHT,
   ushort K.KEY_DOWN, ushort K.KEY_SOFT1, ushort K.KEY_SOFT2, ushort K.KEY_END,
   ushort 0]

/-- The `map[]` of the band `0xFFE1 .. 0xFFEE` (lines 218-223): 14 entries. -/
def map_modifier (K : KeyCodes) : List Int :=
  [ushort K.KEY_LEFTSHIFT, ushort K.KEY_RIGHTSHIFT, ushort K.KEY_COMPOSE, ushort K.KEY_COMPOSE,
   ushort K.KEY_CAPSLOCK, ushort K.KEY_LEFTSHIFT, ushort K.KEY_LEFTMETA, ushort K.KEY_RIGHTMETA,
   ushort K.KEY_LEFTALT, ushort K.KEY_RIGHTALT, ushort 0, ushort 0,
   ushort 0, ushort 0]

/-- The `map[]` of the letter band (lines 227-234): 26 entries. -/
def map_letter (K : KeyCodes) : List Int :=
  [ushort K.KEY_A, ushort K.KEY_B, ushort K.KEY_C, ushort K.KEY_D, ushort K.KEY_E,
   ushort K.KEY_F, ushort K.KEY_G, ushort K.KEY_H, ushort K.KEY_I, ushort K.KEY_J,
   ushort K.KEY_K, ushort K.KEY_L, ushort K.KEY_M, ushort K.KEY_N, ushort K.KEY_O,
   ushort K.KEY_P, ushort K.KEY_Q, ushort K.KEY_R, ushort K.KEY_S, ushort K.KEY_T,
   ushort K.KEY_U, ushort K.KEY_V, ushort K.KEY_W, ushort K.KEY_X, ushort K.KEY_Y,
   ushort K.KEY_Z]

/-- The `map[]` of the band `0xFFBE .. 0xFFD5` (lines 238-245): 24 entries. -/
def map_function (K : KeyCodes) : List Int :=
  [ushort K.KEY_F1, ushort K.KEY_F2, ushort K.KEY_F3, ushort K.KEY_F4,
   ushort K.KEY_F5, ushort K.KEY_F6, ushort K.KEY_F7, ushort K.KEY_F8,
   ushort K.KEY_F9, ushort K.KEY_F10, ushort K.KEY_F11, ushort K.KEY_F12,
   ushort K.KEY_F13, ushort K.KEY_F14, ushort K.KEY_F15, ushort K.KEY_F16,
   ushort K.KEY_F17, ushort K.KEY_F18, ushort K.KEY_F19, ushort K.KEY_F20,
   ushort K.KEY_F21, ushort K.KEY_F22, ushort K.KEY_F23, ushort K.KEY_F24]

/-- The `map[]` of the band `0xFF08 .. 0xFF0D` (lines 249-252): 6 entries. -/
def map_edit (K : KeyCodes) : List Int :=
  [ushort K.KEY_BACKSPACE, ushort K.KEY_TAB, ushort K.KEY_LINEFEED, ushort K.KEY_CLEAR,
   ushort 0, ushort K.KEY_ENTER]

/-- The `map[]` of the band `0xFF13 .. 0xFF15` (lines 256-258): 3 entries. -/
def map_system (K : KeyCodes) : List Int :=
  [ushort K.KEY_PAUSE, ushort K.KEY_SCROLLLOCK, ushort K.KEY_SYSRQ]

/-- The `switch (code)` of lines 262-280, entered with `scancode = 0`; a value with no
case label leaves `scancode` at 0. -/
def scancode_switch (K : KeyCodes) (code : Int) : Int :=
  if code = 0x0003 then K.KEY_CENTER
  else if code = 0x0020 then K.KEY_SPACE
  else if code = 0x0023 then K.KEY_SHARP
  else if code = 0x0033 then K.KEY_SHARP
  else if code = 0x002C then K.KEY_COMMA
  else if code = 0x003C then K.KEY_COMMA
  else if code = 0x002E then K.KEY_DOT
  else if code = 0x003E then K.KEY_DOT
  else if code = 0x002F then K.KEY_SLASH
  else if code = 0x003F then K.KEY_SLASH
  else if code = 0x0032 then K.KEY_EMAIL
  else if code = 0x0040 then K.KEY_EMAIL
  else if code = 0xFF1B then K.KEY_BACK
  else if code = 0xFFFF then K.KEY_DELETE
  else if code = 0x002A then K.KEY_STAR
  else if code = 0xFFAB then K.KEY_VOLUMEUP
  else if code = 0xFFAD then K.KEY_VOLUMEDOWN
  else 0

/-- The function `keysym2scancode` (lines 199-283, the branch that is compiled).  The
argument `kbd_layout` is not used by this branch and is left out.  The result is
`none` exactly when a `map[]` is read outside its bounds.  The sum with `KEY_1` is
the exact one: a digit slot 0..9 is added to a key code.  The character constants
are written as their codes: 48 and 57 for the digits 0 and 9, 65, 90, 97, 122 for
the letters A, Z, a, z. -/
def keysym2scancode (K : KeyCodes) (keysym : Int) : Option Int :=
  let code := keysym
  if code ≥ 48 ∧ code ≤ 57 then
    let scancode := Int.land code 0xF - 1
    let scancode := if scancode < 0 then scancode + 10 else scancode
    some (scancode + K.KEY_1)
  else if code ≥ 0xFF50 ∧ code ≤ 0xFF58 then
    map_at (map_cursor K) (Int.land code 0xF)
  else if code ≥ 0xFFE1 ∧ code ≤ 0xFFEE then
    map_at (map_modifier K) (Int.land code 0xF)
  else if (code ≥ 65 ∧ code ≤ 90) ∨ (code ≥ 97 ∧ code ≤ 122) then
    map_at (map_letter K) (Int.land code 0x5F - 65)
  else if code ≥ 0xFFBE ∧ code ≤ 0xFFD5 then
    map_at (map_function K) (code - 0xFFBE)
  else if code ≥ 0xFF08 ∧ code ≤ 0xFF0D then
    map_at (map_edit K) (code - 0xFF08)
  else if code ≥ 0xFF13 ∧ code ≤ 0xFF15 then
    map_at (map_system K) (code - 0xFF13)
  else
    some (scancode_switch K code)

/-- A sample assignment of the `KEY_*` macros, used where a statement needs concrete
key codes: the Linux input event codes, with the five telephone keys
(`KEY_STAR` .. `KEY_CENTER`) numbered from 227. -/
def linux_keycodes : KeyCodes where
  KEY_1 := 2
  KEY_HOME := 102
  KEY_LEFT := 105
  KEY_UP := 103
  KEY_RIGHT := 106
  KEY_DOWN := 108
  KEY_SOFT1 := 229
  KEY_SOFT2 := 230
  KEY_END := 107
  KEY_LEFTSHIFT := 42
  KEY_RIGHTSHIFT := 54
  KEY_COMPOSE := 127
  KEY_CAPSLOCK := 58
  KEY_LEFTMETA := 125
  KEY_RIGHTMETA := 126
  KEY_LEFTALT := 56
  KEY_RIGHTALT := 100
  KEY_A := 30
  KEY_B := 48
  KEY_C := 46
  KEY_D := 32
  KEY_E := 18
  KEY_F := 33
  KEY_G := 34
  KEY_H := 35
  KEY_I := 23
  KEY_J := 36
  KEY_K := 37
  KEY_L := 38
  KEY_M := 50
  KEY_N := 49
  KEY_O := 24
  KEY_P := 25
  KEY_Q := 16
  KEY_R := 19
  KEY_S := 31
  KEY_T := 20
  KEY_U := 22
  KEY_V := 47
  KEY_W := 17
  KEY_X := 45
  KEY_Y := 21
  KEY_Z := 44
  KEY_F1 := 59
  KEY_F2 := 60
  KEY_F3 := 61
  KEY_F4 := 62
  KEY_F5 := 63
  KEY_F6 := 64
  KEY_F7 := 65
  KEY_F8 := 66
  KEY_F9 := 67
  KEY_F10 := 68
  KEY_F11 := 87
  KEY_F12 := 88
  KEY_F13 := 183
  KEY_F14 := 184
  KEY_F15 := 185
  KEY_F16 := 186
  KEY_F17 := 187
  KEY_F18 := 188
  KEY_F19 := 189
  KEY_F20 := 190
  KEY_F21 := 191
  KEY_F22 := 192
  KEY_F23 := 193
  KEY_F24 := 194
  KEY_BACKSPACE := 14
  KEY_TAB := 15
  KEY_LINEFEED := 101
  KEY_CLEAR := 355
  KEY_ENTER := 28
  KEY_PAUSE := 119
  KEY_SCROLLLOCK := 70
  KEY_SYSRQ := 99
  KEY_CENTER := 232
  KEY_SPACE := 57
  KEY_SHARP := 228
  KEY_COMMA := 51
  KEY_DOT := 52
  KEY_SLASH := 53
  KEY_EMAIL := 215
  KEY_BACK := 158
  KEY_DELETE := 111
  KEY_STAR := 227
  KEY_VOLUMEUP := 115
  KEY_VOLUMEDOWN := 114

/-- The seven bands of `keysym2scancode`, in the order the code tests them. -/
def in_band (code : Int) : Prop :=
  (48 ≤ code ∧ code ≤ 57) ∨ (0xFF50 ≤ code ∧ code ≤ 0xFF58) ∨
  (0xFFE1 ≤ code ∧ code ≤ 0xFFEE) ∨
  ((65 ≤ code ∧ code ≤ 90) ∨ (97 ≤ code ∧ code ≤ 122)) ∨
  (0xFFBE ≤ code ∧ code ≤ 0xFFD5) ∨ (0xFF08 ≤ code ∧ code ≤ 0xFF0D) ∨
  (0xFF13 ≤ code ∧ code ≤ 0xFF15)

instance (code : Int) : Decidable (in_band code) := by
  unfold in_band; infer_instance

/-- The case labels of the `switch` of lines 263-279. -/
def case_labels : List Int :=
  [0x0003, 0x0020, 0x0023, 0x0033, 0x002C, 0x003C, 0x002E, 0x003E, 0x002F, 0x003F,
   0x0032, 0x0040, 0xFF1B, 0xFFFF, 0x002A, 0xFFAB, 0xFFAD]


/-! ## The layout parser: `parse_keyboard_layout` -/

/-- The function `get_keysym` (lines 30-39).  The table is the list of its entries
before the sentinel entry (the one whose `name` is `NULL`); an entry is its name
and its keysym. -/
def get_keysym (table : List (List Char × Int)) (name : List Char) : Int :=
  match table with
  | [] => 0
  | p :: rest => if p.1 = name then p.2 else get_keysym rest name

/-- One node of the linked list `struct key_range`: the fields `start` and `end`
(the field `next` is the tail of the Lean list). -/
structure key_range where
  start : Int
  end_ : Int
  deriving DecidableEq

/-- The loop of `add_to_key_range` (lines 44-55): the list after the loop when it
leaves by a `break`, `none` when it ends with `kr == NULL`. -/
def key_range_scan (code : Int) : List key_range → Option (List key_range)
  | [] => none
  | kr :: next =>
    if code ≥ kr.start ∧ code ≤ kr.end_ then some (kr :: next)
    else if code = kr.start - 1 then some ({ kr with start := kr.start - 1 } :: next)
    else if code = kr.end_ + 1 then some ({ kr with end_ := kr.end_ + 1 } :: next)
    else (key_range_scan code next).map (fun l => kr :: l)

/-- The function `add_to_key_range` (lines 42-62): when the loop found no node, a
node `[code, code]` is put in front. -/
def add_to_key_range (krp : List key_range) (code : Int) : List key_range :=
  match key_range_scan code krp with
  | some l => l
  | none => { start := code, end_ := code } :: krp

/-- Modelled from the spec: the type `kbd_layout_t` is declared in `keymaps.h`, which is
not among the sources.  Following the spec's data model: `keysym2keycode` is the
direct table, an array of `int` over `[0, MAX_NORMAL_KEYCODE)` (here a function of
the index); `keysym2keycode_extra` is the overflow table, the list of its
`extra_count` entries (keysym, keycode) in insertion order; `keypad_range` and
`numlock_range` are the two range lists. -/
structure kbd_layout_t where
  keysym2keycode : Int → Int
  keysym2keycode_extra : List (Int × Int)
  keypad_range : List key_range
  numlock_range : List key_range

/-- The field `extra_count`: the number of entries of the overflow table. -/
def kbd_layout_t.extra_count (k : kbd_layout_t) : Int := k.keysym2keycode_extra.length

/-- The layout that `qemu_mallocz(sizeof(kbd_layout_t))` returns: all zero. -/
def zero_layout : kbd_layout_t where
  keysym2keycode := fun _ => 0
  keysym2keycode_extra := []
  keypad_range := []
  numlock_range := []

/-- What `parse_keyboard_layout` takes from outside the file: the two macros of
`keymaps.h` (not among the sources) and the library calls.  `qemu_find_file` gives
the file name of a keymap name, or `none` for `NULL`; `fopen` gives the text of
a file, or `none` for `NULL`; `strtol s` is `(int) strtol(s, &rest2, 0)`. -/
structure Env where
  MAX_NORMAL_KEYCODE : Nat
  MAX_EXTRA_COUNT : Nat
  qemu_find_file : List Char → Option (List Char)
  fopen : List Char → Option (List Char)
  strtol : List Char → Int

/-- The buffers that the successive calls `fgets(line, size, f)` of the loop return
(lines 106-108), up to the call that returns `NULL`: each call takes characters up
to and with the first newline, at most `size - 1` of them.  `room` is the number of
characters the buffer being filled still takes, `cur` what it holds (reversed). -/
def fgets_buffers (size : Nat) : Nat → List Char → List Char → List (List Char)
  | _, cur, [] => if cur = [] then [] else [cur.reverse]
  | room, cur, c :: f =>
    if c = '\n' ∨ room ≤ 1 then (c :: cur).reverse :: fgets_buffers size (size - 1) [] f
    else fgets_buffers size (room - 1) (c :: cur) f

/-- The C string that a buffer holds: its characters before the first NUL. -/
def cstr (buf : List Char) : List Char := buf.takeWhile (fun c => c ≠ Char.ofNat 0)

/-- Lines 109-111: a trailing newline is cut off. -/
def chomp (line : List Char) : List Char :=
  if line.getLast? = some '\n' then line.dropLast else line

/-- The lines that the loop of lines 106-111 reads from a file of text `f`, each
with its newline cut off. -/
def read_lines (f : List Char) : List (List Char) :=
  (fgets_buffers 1024 1023 [] f).map (fun buf => chomp (cstr buf))

/-- The call `strstr(haystack, needle) != NULL`. -/
def strstr : List Char → List Char → Bool
  | [], needle => needle.isEmpty
  | c :: cs, needle => needle.isPrefixOf (c :: cs) || strstr cs needle

/-- Lines 119-124 and 129: the line is cut at its first space into the keysym name
and `rest`; `none` when the line has no space (`*end_of_keysym == 0`). -/
def split_keysym (line : List Char) : Option (List Char × List Char) :=
  match line.dropWhile (fun c => c ≠ ' ') with
  | [] => none
  | _ :: rest => some (line.takeWhile (fun c => c ≠ ' '), rest)

/-- Lines 133-160, for a keysym that is not 0: the two ranges take the keycode and the
keysym when the line holds `numlock`, then the keycode is stored in the direct
table or appended to the overflow table.  A keysym below 0 is below
`MAX_NORMAL_KEYCODE`, and the store `k->keysym2keycode[keysym]` is then outside the
array: `none`. -/
def store_keysym (E : Env) (keysym keycode : Int) (numlock : Bool) (k : kbd_layout_t) :
    Option kbd_layout_t :=
  let k1 : kbd_layout_t :=
    if numlock then
      { k with keypad_range := add_to_key_range k.keypad_range keycode,
               numlock_range := add_to_key_range k.numlock_range keysym }
    else k
  if keysym < (E.MAX_NORMAL_KEYCODE : Int) then
    if keysym < 0 then none
    else some { k1 with keysym2keycode := Function.update k1.keysym2keycode keysym keycode }
  else if k1.extra_count ≥ (E.MAX_EXTRA_COUNT : Int) then some k1
  else some { k1 with keysym2keycode_extra := k1.keysym2keycode_extra ++ [(keysym, keycode)] }

/-- Lines 119-162: the `else` branch of the loop body, for a line that is no comment,
no `map` line and no `include` line. -/
def assign_line (E : Env) (table : List (List Char × Int)) (line : List Char)
    (k : kbd_layout_t) : Option kbd_layout_t :=
  match split_keysym line with
  | none => some k
  | some (name, rest) =>
    let keysym := get_keysym table name
    if keysym = 0 then some k
    else
      let keycode := E.strtol rest
      store_keysym E keysym keycode (strstr rest "numlock".toList) k

/-- How a run of the parser can fail to return: the recursion went deeper than the
fuel, or the run left defined behaviour. -/
inductive Fault where
  | out_of_fuel
  | undefined_behaviour
  deriving DecidableEq

/-- The loop body of lines 112-163 over the lines read.  `recurse name k` is the
effect of the call `parse_keyboard_layout(table, line + 8, k)` on the layout. -/
def parse_lines (E : Env) (table : List (List Char × Int))
    (recurse : List Char → kbd_layout_t → Except Fault kbd_layout_t) :
    List (List Char) → kbd_layout_t → Except Fault kbd_layout_t
  | [], k => .ok k
  | line :: more, k =>
    if line.head? = some '#' then parse_lines E table recurse more k
    else if "map ".toList.isPrefixOf line then parse_lines E table recurse more k
    else if "include ".toList.isPrefixOf line then
      match recurse (line.drop 8) k with
      | .error e => .error e
      | .ok k1 => parse_lines E table recurse more k1
    else
      match assign_line E table line k with
      | none => .error Fault.undefined_behaviour
      | some k1 => parse_lines E table recurse more k1

/-- The function `parse_keyboard_layout` (lines 64-167), in the configuration without
`CONFIG_STANDALONE_UI`.  The first argument bounds the depth of the recursion.
The result is `none` for `NULL` and the layout otherwise.  A nested call works on
the caller's layout; when it returns `NULL` it has not touched it, and the caller
ignores what it returns (line 117). -/
def parse_keyboard_layout (E : Env) (table : List (List Char × Int)) :
    Nat → List Char → Option kbd_layout_t → Except Fault (Option kbd_layout_t)
  | 0, _, _ => .error Fault.out_of_fuel
  | fuel + 1, language, k =>
    match E.qemu_find_file language with
    | none => .ok none
    | some filename =>
      let k := k.getD zero_layout
      match E.fopen filename with
      | none => .ok none
      | some f =>
        (parse_lines E table
          (fun name k1 => (parse_keyboard_layout E table fuel name (some k1)).map
            (fun r => r.getD k1))
          (read_lines f) k).map some

/-- The function `init_keyboard_layout` (lines 170-173). -/
def init_keyboard_layout (E : Env) (table : List (List Char × Int)) (fuel : Nat)
    (language : List Char) : Except Fault (Option kbd_layout_t) :=
  parse_keyboard_layout E table fuel language none

/-- The scan of `keycode_is_keypad` and `keysym_is_numlock` over a range list: 1 when a
node covers the value, 0 otherwise. -/
def key_range_covers (code : Int) : List key_range → Int
  | [] => 0
  | kr :: next => if code ≥ kr.start ∧ code ≤ kr.end_ then 1 else key_range_covers code next

/-- The function `keycode_is_keypad` (lines 288-297). -/
def keycode_is_keypad (k : kbd_layout_t) (keycode : Int) : Int :=
  key_range_covers keycode k.keypad_range

/-- The function `keysym_is_numlock` (lines 299-308). -/
def keysym_is_numlock (k : kbd_layout_t) (keysym : Int) : Int :=
  key_range_covers keysym k.numlock_range

/-! ### A model of the library call `strtol` and sample environments -/

/-- The value of a digit character in base up to 16, as `strtol` reads it. -/
def digit_value (c : Char) : Option Nat :=
  if '0' ≤ c ∧ c ≤ '9' then some (c.toNat - 48)
  else if 'a' ≤ c ∧ c ≤ 'f' then some (c.toNat - 87)
  else if 'A' ≤ c ∧ c ≤ 'F' then some (c.toNat - 55)
  else none

/-- The value of the longest run of digits of the base at the head of `s`, after the
digits read so far gave `acc`. -/
def strtol_digits (base : Nat) (acc : Nat) : List Char → Nat
  | [] => acc
  | c :: s =>
    match digit_value c with
    | some d => if d < base then strtol_digits base (acc * base + d) s else acc
    | none => acc

/-- The number at the head of `s` in base 0 of `strtol`: `0x` or `0X` before a
hexadecimal digit starts a hexadecimal number, another leading `0` an octal one,
anything else is decimal. -/
def strtol_magnitude : List Char → Nat
  | '0' :: x :: d :: s =>
    if (x = 'x' ∨ x = 'X') ∧ ((digit_value d).isSome) then strtol_digits 16 0 (d :: s)
    else strtol_digits 8 0 (x :: d :: s)
  | '0' :: s => strtol_digits 8 0 s
  | s => strtol_digits 10 0 s

/-- A model of `(int) strtol(s, &rest2, 0)` after the C standard, for a 64-bit `long`
and a 32-bit `int`: white space is skipped, a sign is read, the number is clamped
to the range of `long` and converted to `int` modulo `2^32`. -/
def strtol_model (s : List Char) : Int :=
  let s := s.dropWhile (fun c => c = ' ' ∨ (9 ≤ c.toNat ∧ c.toNat ≤ 13))
  let v : Int :=
    match s with
    | '-' :: t => - (strtol_magnitude t : Int)
    | '+' :: t => strtol_magnitude t
    | t => strtol_magnitude t
  let l : Int := max (-(2 ^ 63)) (min (2 ^ 63 - 1) v)
  (l + 2 ^ 31) % 2 ^ 32 - 2 ^ 31

/-- A sample environment: the two macros as given, the files given by a list of
(name, text) pairs, every file found under its own name, `strtol_model` for
`strtol`.  QEMU has 512 and 256 for the macros. -/
def sample_env (normal extra : Nat) (files : List (List Char × List Char)) : Env where
  MAX_NORMAL_KEYCODE := normal
  MAX_EXTRA_COUNT := extra
  qemu_find_file := fun name => if (files.lookup name).isSome then some name else none
  fopen := fun filename => files.lookup filename
  strtol := strtol_model

/-! ### The processing order of a parse, in the words of the specification -/

/-- The assignment that a processed line makes: its keysym, its keycode and whether it
holds `numlock`; `none` for a comment, a `map` line, an `include` line, a line
without a space and a line whose name resolves to 0. -/
def assignment_of (E : Env) (table : List (List Char × Int)) (line : List Char) :
    Option (Int × Int × Bool) :=
  if line.head? = some '#' then none
  else if "map ".toList.isPrefixOf line then none
  else if "include ".toList.isPrefixOf line then none
  else
    match split_keysym line with
    | none => none
    | some (name, rest) =>
      if get_keysym table name = 0 then none
      else some (get_keysym table name, E.strtol rest, strstr rest "numlock".toList)

/-- The lines of a file with every `include` line replaced by the lines `sub` gives
for the included name; `none` when `sub` gives none for one of them. -/
def expand_lines (sub : List Char → Option (List (List Char))) :
    List (List Char) → Option (List (List Char))
  | [] => some []
  | line :: more =>
    if line.head? = some '#' then (expand_lines sub more).map (fun l => line :: l)
    else if "map ".toList.isPrefixOf line then (expand_lines sub more).map (fun l => line :: l)
    else if "include ".toList.isPrefixOf line then
      match sub (line.drop 8), expand_lines sub more with
      | some a, some b => some (a ++ b)
      | _, _ => none
    else (expand_lines sub more).map (fun l => line :: l)

/-- The lines that a parse of `language` processes, in processing order: the lines of
an included file stand at the place of the `include` line, and a file that is not
found or not opened has no lines.  The result is `none` when the includes nest
deeper than the fuel. -/
def processed_lines (E : Env) : Nat → List Char → Option (List (List Char))
  | 0, _ => none
  | fuel + 1, language =>
    match E.qemu_find_file language with
    | none => some []
    | some filename =>
      match E.fopen filename with
      | none => some []
      | some f => expand_lines (processed_lines E fuel) (read_lines f)

/-- The assignments of a parse of `language`, in processing order. -/
def assignments (E : Env) (table : List (List Char × Int)) (fuel : Nat)
    (language : List Char) : Option (List (Int × Int × Bool)) :=
  (processed_lines E fuel language).map (fun L => L.filterMap (assignment_of E table))

/-- The stores of lines 133-160 for a sequence of assignments, one after the other. -/
def apply_assignments (E : Env) : List (Int × Int × Bool) → kbd_layout_t → Option kbd_layout_t
  | [], k => some k
  | a :: more, k =>
    match store_keysym E a.1 a.2.1 a.2.2 k with
    | none => none
    | some k1 => apply_assignments E more k1

/-- The keycode of the last assignment to the keysym `s` in a sequence, `d` when the
sequence has none. -/
def last_keycode (d : Int) (s : Int) (l : List (Int × Int × Bool)) : Int :=
  match (l.filter (fun a => decide (a.1 = s))).getLast? with
  | some a => a.2.1
  | none => d

/-- The (keysym, keycode) pairs of the assignments whose keysym is at or above
`MAX_NORMAL_KEYCODE`, in order. -/
def overflow_pairs (E : Env) (l : List (Int × Int × Bool)) : List (Int × Int) :=
  (l.filter (fun a => decide ((E.MAX_NORMAL_KEYCODE : Int) ≤ a.1))).map (fun a => (a.1, a.2.1))

/-- The include structure is well founded: every `include` line of a file that is
found and opened names a keymap of smaller rank. -/
def include_ranked (E : Env) (rank : List Char → Nat) : Prop :=
  ∀ language filename f line, E.qemu_find_file language = some filename →
    E.fopen filename = some f → line ∈ read_lines f →
    "include ".toList.isPrefixOf line = true → rank (line.drop 8) < rank language


/-! ### Sample inputs -/

/-- The minimal layout file of the specification, under the name `minimal`. -/
def minimal_files : List (List Char × List Char) :=
  [("minimal".toList, "a 30\nb 31\n".toList)]

/-- The name table of the minimal layout file. -/
def minimal_table : List (List Char × Int) := [("a".toList, 1), ("b".toList, 2)]

/-- The layout that the minimal layout file gives. -/
def minimal_layout : kbd_layout_t where
  keysym2keycode := Function.update (Function.update (fun _ => 0) 1 30) 2 31
  keysym2keycode_extra := []
  keypad_range := []
  numlock_range := []

/-- A keymap that includes itself. -/
def loop_files : List (List Char × List Char) :=
  [("loop".toList, "include loop\n".toList)]

/-- A name table whose keysym for the name `a` is below 0. -/
def negative_table : List (List Char × Int) := [("a".toList, -1)]

/-- Three keysyms at or above `MAX_NORMAL_KEYCODE` = 512. -/
def overflow_table : List (List Char × Int) :=
  [("x".toList, 0x1000), ("y".toList, 0x1001), ("z".toList, 0x1002)]

/-- A keymap with three assignments to keysyms of the overflow table. -/
def overflow_files : List (List Char × List Char) :=
  [("over".toList, "x 1\ny 2\nz 3\n".toList)]

/-- The layout that `overflow_files` gives when `MAX_EXTRA_COUNT` is 2. -/
def overflow_layout : kbd_layout_t where
  keysym2keycode := fun _ => 0
  keysym2keycode_extra := [(0x1000, 1), (0x1001, 2)]
  keypad_range := []
  numlock_range := []

/-- A keymap `top` with a comment, a `map` line, an include that is not found, an
include of `other`, a line without a space, an unknown name, two assignments to
overflow keysyms and an assignment to the direct table. -/
def mixed_files : List (List Char × List Char) :=
  [("top".toList,
    "# comment\nmap 0x409\ninclude missing\ninclude other\nnospace\nunknown 7\nx 1\ny 2\nfoo 5\n".toList),
   ("other".toList, "bar 6\n".toList)]

/-- The name table of `mixed_files`. -/
def mixed_table : List (List Char × Int) :=
  [("foo".toList, 1), ("bar".toList, 2), ("x".toList, 0x1000), ("y".toList, 0x1001)]

/-- A rank for `mixed_files`: `top` is above every other name. -/
def mixed_rank (name : List Char) : Nat := if name = "top".toList then 1 else 0


/-! ### Range lists: the notions of the specification -/

/-- The range list reached from the empty list by inserting the values of `vs` in
order with `add_to_key_range`. -/
def insert_all (vs : List Int) : List key_range :=
  vs.foldl add_to_key_range []

/-- Every interval of the list has `start <= end`. -/
def range_wf (s : List key_range) : Prop :=
  ∀ kr ∈ s, kr.start ≤ kr.end_

/-- Two intervals are separated by a gap of at least 2: they neither overlap nor
are adjacent. -/
def gap2 (a b : key_range) : Prop :=
  a.end_ + 2 ≤ b.start ∨ b.end_ + 2 ≤ a.start

instance (a b : key_range) : Decidable (gap2 a b) := by
  unfold gap2; infer_instance

/-- Any two intervals at different places of the list are separated by a gap of at
least 2. -/
def separated (s : List key_range) : Prop :=
  s.Pairwise gap2

/-! ### Sample inputs for the ranges -/

/-- A keymap with two `numlock` lines and a plain assignment after them. -/
def numlock_files : List (List Char × List Char) :=
  [("kp".toList, "kp_7 71 numlock\nkp_8 72 numlock\na 30\n".toList)]

/-- The name table of `numlock_files`; the keypad keysyms are those of X11. -/
def numlock_table : List (List Char × Int) :=
  [("kp_7".toList, 0xFFB7), ("kp_8".toList, 0xFFB8), ("a".toList, 1)]

/-- The layout that `numlock_files` gives. -/
def numlock_layout : kbd_layout_t where
  keysym2keycode := Function.update (fun _ => 0) 1 30
  keysym2keycode_extra := [(0xFFB7, 71), (0xFFB8, 72)]
  keypad_range := [⟨71, 72⟩]
  numlock_range := [⟨0xFFB7, 0xFFB8⟩]

/-! ### Skipped lines and sample inputs for the includes -/

/-- The lines that the claims call skipped: a line that starts with `#`, a line that
starts with `map `, a line without a space, and an assignment line (no `include`
line) whose name, the part before the first space, resolves to 0. -/
def is_skipped (table : List (List Char × Int)) (line : List Char) : Bool :=
  decide (line.head? = some '#') || "map ".toList.isPrefixOf line || !line.contains ' ' ||
    (!"include ".toList.isPrefixOf line &&
      decide (get_keysym table (line.takeWhile (fun c => c ≠ ' ')) = 0))

/-- The include example of the specification: `top` includes `other`; `inlined` is
`top` with the include line replaced by the lines of `other`. -/
def include_files : List (List Char × List Char) :=
  [("top".toList, "include other\nfoo 5\n".toList),
   ("other".toList, "bar 6\n".toList),
   ("inlined".toList, "bar 6\nfoo 5\n".toList)]

/-- The name table of `include_files`. -/
def include_table : List (List Char × Int) := [("foo".toList, 1), ("bar".toList, 2)]

/-- The layout that `top` and `inlined` of `include_files` give. -/
def include_layout : kbd_layout_t where
  keysym2keycode := Function.update (Function.update (fun _ => 0) 2 6) 1 5
  keysym2keycode_extra := []
  keypad_range := []
  numlock_range := []

/-- A rank for `include_files`: `other` is below the two keymaps that hold it. -/
def include_rank (name : List Char) : Nat := if name = "other".toList then 0 else 1

/-- A keymap `top` whose first line includes a keymap that is not found; `plain` is
`top` without that line. -/
def failing_include_files : List (List Char × List Char) :=
  [("top".toList, "include missing\nfoo 5\n".toList), ("plain".toList, "foo 5\n".toList)]

/-- The layout with the one assignment `direct[1] = 5`, which `top` and `plain` of
`failing_include_files` give. -/
def foo_layout : kbd_layout_t where
  keysym2keycode := Function.update (fun _ => 0) 1 5
  keysym2keycode_extra := []
  keypad_range := []
  numlock_range := []

/-- A keymap `top` with a comment, a `map` line, a line without a space and an
unknown name around one assignment; `stripped` is `top` without these lines. -/
def skipped_files : List (List Char × List Char) :=
  [("top".toList, "# comment\nmap 0x409\nnospace\nunknown 7\nfoo 5\n# end\n".toList),
   ("stripped".toList, "foo 5\n".toList)]

/-! ## Theorems on the translator -/

theorem map_at_of_lt (map : List Int) (i : Int) (h0 : 0 ≤ i) (h : i.toNat < map.length) :
    map_at map i = some (map.get ⟨i.toNat, h⟩) := by
  unfold map_at
  rw [if_neg (not_lt.mpr h0)]
  exact List.getElem?_eq_getElem h

/-- C1 (evaluation at the failing input): the keysym 0xFFEE lies in the modifier band,
its index `0xFFEE & 0xF` is 14, and the band's table has the 14 entries 0..13: the
read is outside the table. -/
theorem keysym2scancode_modifier_overrun (K : KeyCodes) :
    Int.land 0xFFEE 0xF = 14 ∧ (map_modifier K).length = 14 ∧
      keysym2scancode K 0xFFEE = none := by
  refine ⟨by decide, rfl, rfl⟩

/-- Every other keysym of `[0, 0x10000)` is translated to a value: no table but the
modifier band's is read outside its bounds. -/
theorem keysym2scancode_isSome (K : KeyCodes) (c : Int) (h0 : 0 ≤ c) (h1 : c < 0x10000)
    (hc : c ≠ 0xFFEE) : (keysym2scancode K c).isSome = true := by
  unfold keysym2scancode
  simp only []
  split_ifs with a a2 b d e f g h
  · rfl
  · rfl
  · obtain ⟨b1, b2⟩ := b
    interval_cases c <;> rfl
  · obtain ⟨d1, d2⟩ := d
    interval_cases c <;> first | rfl | exact absurd rfl hc
  · rcases e with ⟨e1, e2⟩ | ⟨e1, e2⟩ <;> interval_cases c <;> rfl
  · obtain ⟨f1, f2⟩ := f
    interval_cases c <;> rfl
  · obtain ⟨g1, g2⟩ := g
    interval_cases c <;> rfl
  · obtain ⟨g1, g2⟩ := h
    interval_cases c <;> rfl
  · rfl

/-- C2 (evaluation at the failing inputs): the modifier band is indexed by
`code & 0xF`, which is 1 for 0xFFE1 and 10 for 0xFFEA, so 0xFFE1 reads the entry of
`KEY_RIGHTSHIFT` (the second one) and 0xFFEA reads an unmapped entry. -/
theorem keysym2scancode_modifier_shifted (K : KeyCodes) :
    keysym2scancode K 0xFFE1 = some (ushort K.KEY_RIGHTSHIFT) ∧
      keysym2scancode K 0xFFEA = some 0 ∧
      (∀ i : Nat, i < 13 →
        keysym2scancode K (0xFFE1 + (i : Int)) = (map_modifier K)[i + 1]?) := by
  refine ⟨rfl, rfl, ?_⟩
  intro i hi
  interval_cases i <;> rfl

/-- C3: a digit character code `c` (48..57, value `n = c - 48`) is translated to
`KEY_1 + ((n - 1) mod 10)`, non-negative residue: the codes of 1..9 give
`KEY_1 + (n - 1)` and the code of 0 gives `KEY_1 + 9`. -/
theorem keysym2scancode_digit (K : KeyCodes) (c : Int) (h0 : 48 ≤ c) (h9 : c ≤ 57) :
    keysym2scancode K c = some (K.KEY_1 + (c - 48 - 1) % 10) ∧
      0 ≤ (c - 48 - 1) % 10 ∧ (c - 48 - 1) % 10 ≤ 9 ∧
      (49 ≤ c → keysym2scancode K c = some (K.KEY_1 + (c - 49))) ∧
      (c = 48 → keysym2scancode K c = some (K.KEY_1 + 9)) := by
  interval_cases c <;>
    simp [keysym2scancode, add_comm] <;> decide

/-- C3 (witness): the character code 48 of the digit 0, with the Linux key codes, is
translated to `KEY_1 + 9` = 11 (`KEY_0`). -/
theorem keysym2scancode_digit_witness :
    (48 : Int) ≤ 48 ∧ (48 : Int) ≤ 57 ∧
      keysym2scancode linux_keycodes 48 = some (linux_keycodes.KEY_1 + (48 - 48 - 1) % 10) ∧
      keysym2scancode linux_keycodes 48 = some 11 :=
  ⟨by decide, by decide,
   (keysym2scancode_digit linux_keycodes 48 (by decide) (by decide)).1, by decide⟩

/-- C4 (counterexample): with the Linux key codes, where `KEY_1 = 2` and so
`KEY_4 = KEY_1 + 3 = 5`, the character code 53 of the digit 5 is translated to 6,
which is `KEY_5`, not to `KEY_4`. -/
theorem keysym2scancode_five_not_key4 :
    keysym2scancode linux_keycodes 53 = some 6 ∧ linux_keycodes.KEY_1 + 3 = 5 ∧
      keysym2scancode linux_keycodes 53 ≠ some (linux_keycodes.KEY_1 + 3) := by
  decide

/-- C4 (amended): the character code 53 of the digit 5 is translated to `KEY_1 + 4`,
the fifth of the consecutive digit keys (`KEY_5`), for every assignment of the key
codes; it is never `KEY_1 + 3`. -/
theorem keysym2scancode_five (K : KeyCodes) :
    keysym2scancode K 53 = some (K.KEY_1 + 4) ∧
      keysym2scancode K 53 ≠ some (K.KEY_1 + 3) := by
  have h : keysym2scancode K 53 = some (K.KEY_1 + 4) := by
    simp [keysym2scancode, add_comm]; decide
  refine ⟨h, ?_⟩
  rw [h]
  intro hk
  have := Option.some.inj hk
  omega

/-- C5 (counterexample): the case labels 0x33 and 0x32 are the character codes of the
digits 3 and 2, which the digit band takes first: with the Linux key codes 0x33 is
translated to 4 (`KEY_3`), not to `KEY_SHARP` = 228, and 0x32 to 3 (`KEY_2`), not
to `KEY_EMAIL` = 215. -/
theorem keysym2scancode_case_labels_shadowed :
    0x33 ∈ case_labels ∧ 0x32 ∈ case_labels ∧
      keysym2scancode linux_keycodes 0x33 = some 4 ∧
      keysym2scancode linux_keycodes 0x33 ≠ some linux_keycodes.KEY_SHARP ∧
      keysym2scancode linux_keycodes 0x32 = some 3 ∧
      keysym2scancode linux_keycodes 0x32 ≠ some linux_keycodes.KEY_EMAIL := by
  decide

/-- C5 (amended): every case label of the switch that lies outside the bands is
honoured: 15 of the 17 labels give the device key of their case, so that Comma, Dot
and Slash are each the result for two keysyms, while Sharp is given by 0x23 and
Email by 0x40; the labels 0x33 and 0x32 lie in the digit band and give the digit
keys `KEY_1 + 2` and `KEY_1 + 1`. -/
theorem keysym2scancode_case_labels (K : KeyCodes) :
    (∀ c ∈ case_labels, ¬ in_band c →
        keysym2scancode K c = some (scancode_switch K c)) ∧
      (∀ c ∈ case_labels, in_band c ↔ (c = 0x33 ∨ c = 0x32)) ∧
      keysym2scancode K 0x0003 = some K.KEY_CENTER ∧
      keysym2scancode K 0x0020 = some K.KEY_SPACE ∧
      keysym2scancode K 0x0023 = some K.KEY_SHARP ∧
      keysym2scancode K 0x002C = some K.KEY_COMMA ∧
      keysym2scancode K 0x003C = some K.KEY_COMMA ∧
      keysym2scancode K 0x002E = some K.KEY_DOT ∧
      keysym2scancode K 0x003E = some K.KEY_DOT ∧
      keysym2scancode K 0x002F = some K.KEY_SLASH ∧
      keysym2scancode K 0x003F = some K.KEY_SLASH ∧
      keysym2scancode K 0x0040 = some K.KEY_EMAIL ∧
      keysym2scancode K 0xFF1B = some K.KEY_BACK ∧
      keysym2scancode K 0xFFFF = some K.KEY_DELETE ∧
      keysym2scancode K 0x002A = some K.KEY_STAR ∧
      keysym2scancode K 0xFFAB = some K.KEY_VOLUMEUP ∧
      keysym2scancode K 0xFFAD = some K.KEY_VOLUMEDOWN ∧
      keysym2scancode K 0x0033 = some (K.KEY_1 + 2) ∧
      keysym2scancode K 0x0032 = some (K.KEY_1 + 1) := by
  refine ⟨?_, ?_, rfl, rfl, rfl, rfl, rfl, rfl, rfl, rfl, rfl, rfl, rfl, rfl, rfl, rfl, rfl,
    ?_, ?_⟩
  · intro c hc hb
    simp only [case_labels, List.mem_cons, List.mem_singleton, List.not_mem_nil,
      or_false] at hc
    rcases hc with h | h | h | h | h | h | h | h | h | h | h | h | h | h | h | h | h <;>
      subst h <;> first | rfl | exact absurd (by decide) hb
  · intro c hc
    simp only [case_labels, List.mem_cons, List.mem_singleton, List.not_mem_nil,
      or_false] at hc
    rcases hc with h | h | h | h | h | h | h | h | h | h | h | h | h | h | h | h | h <;>
      subst h <;> decide
  · simp [keysym2scancode, add_comm]; decide
  · simp [keysym2scancode, add_comm]; decide

/-- C6: for every upper-case letter code `c` (65..90) the index `(c & 0x5F) - 65` is
`c - 65`, in 0..25, for `c` and for its lower-case code `c + 0x20` alike; both are
translated to the entry `c - 65` of the 26-entry letter table. -/
theorem keysym2scancode_letter (K : KeyCodes) (c : Int) (hA : 65 ≤ c) (hZ : c ≤ 90) :
    Int.land c 0x5F - 65 = c - 65 ∧ Int.land (c + 0x20) 0x5F - 65 = c - 65 ∧
      0 ≤ c - 65 ∧ c - 65 ≤ 25 ∧ (map_letter K).length = 26 ∧
      keysym2scancode K c = (map_letter K)[(c - 65).toNat]? ∧
      keysym2scancode K (c + 0x20) = keysym2scancode K c ∧
      (keysym2scancode K c).isSome = true := by
  refine ⟨?_, ?_, by omega, by omega, rfl, ?_, ?_, ?_⟩ <;>
    interval_cases c <;> rfl

/-- C6 (witness): the codes 65 and 97 of the letter A, with the Linux key codes, are
both translated to `KEY_A`. -/
theorem keysym2scancode_letter_witness :
    (65 : Int) ≤ 65 ∧ (65 : Int) ≤ 90 ∧
      keysym2scancode linux_keycodes 65 = (map_letter linux_keycodes)[(65 - 65 : Int).toNat]? ∧
      keysym2scancode linux_keycodes (65 + 0x20) = keysym2scancode linux_keycodes 65 ∧
      keysym2scancode linux_keycodes 65 = some linux_keycodes.KEY_A :=
  ⟨by decide, by decide,
   (keysym2scancode_letter linux_keycodes 65 (by decide) (by decide)).2.2.2.2.2.1,
   (keysym2scancode_letter linux_keycodes 65 (by decide) (by decide)).2.2.2.2.2.2.1,
   by decide⟩

/-- C7: an integer keysym of any sign and size that lies in none of the seven bands
and is no case label of the switch is translated to 0. -/
theorem keysym2scancode_unmapped (K : KeyCodes) (c : Int) (hb : ¬ in_band c)
    (hl : c ∉ case_labels) : keysym2scancode K c = some 0 := by
  simp only [in_band, not_or] at hb
  obtain ⟨b1, b2, b3, b4, b5, b6, b7⟩ := hb
  obtain ⟨b4, b4'⟩ := b4
  simp only [case_labels, List.mem_cons, List.mem_singleton, List.not_mem_nil,
    or_false, not_or] at hl
  obtain ⟨l1, l2, l3, l4, l5, l6, l7, l8, l9, l10, l11, l12, l13, l14, l15, l16, l17⟩ := hl
  unfold keysym2scancode
  simp only [ge_iff_le]
  rw [if_neg b1, if_neg b2, if_neg b3, if_neg (not_or.mpr ⟨b4, b4'⟩), if_neg b5, if_neg b6,
    if_neg b7]
  unfold scancode_switch
  rw [if_neg l1, if_neg l2, if_neg l3, if_neg l4, if_neg l5, if_neg l6, if_neg l7, if_neg l8,
    if_neg l9, if_neg l10, if_neg l11, if_neg l12, if_neg l13, if_neg l14, if_neg l15,
    if_neg l16, if_neg l17]

/-- C7 (witness): the keysyms -1, 0x10000 and 0x21 are translated to 0. -/
theorem keysym2scancode_unmapped_witness :
    ¬ in_band (-1) ∧ (-1 : Int) ∉ case_labels ∧
      keysym2scancode linux_keycodes (-1) = some 0 ∧
      keysym2scancode linux_keycodes 0x10000 = some 0 ∧
      keysym2scancode linux_keycodes 0x21 = some 0 :=
  ⟨by decide, by decide,
   keysym2scancode_unmapped linux_keycodes (-1) (by decide) (by decide),
   keysym2scancode_unmapped linux_keycodes 0x10000 (by decide) (by decide),
   keysym2scancode_unmapped linux_keycodes 0x21 (by decide) (by decide)⟩


/-! ## Theorems on the parser -/

theorem get_keysym_nonneg (table : List (List Char × Int)) (hnn : ∀ p ∈ table, 0 ≤ p.2)
    (name : List Char) : 0 ≤ get_keysym table name := by
  induction table with
  | nil => simp [get_keysym]
  | cons p rest ih =>
    unfold get_keysym
    split_ifs
    · exact hnn p (List.mem_cons_self _ _)
    · exact ih (fun q hq => hnn q (List.mem_cons_of_mem _ hq))

theorem store_keysym_isSome (E : Env) (keysym keycode : Int) (numlock : Bool)
    (k : kbd_layout_t) (h : 0 ≤ keysym) :
    ∃ k1, store_keysym E keysym keycode numlock k = some k1 := by
  unfold store_keysym
  simp only []
  split_ifs <;> first | exact ⟨_, rfl⟩ | omega

theorem assign_line_eq (E : Env) (table : List (List Char × Int)) (line : List Char)
    (k : kbd_layout_t) (h1 : ¬ line.head? = some '#')
    (h2 : ¬ "map ".toList.isPrefixOf line = true)
    (h3 : ¬ "include ".toList.isPrefixOf line = true) :
    assign_line E table line k =
      match assignment_of E table line with
      | none => some k
      | some a => store_keysym E a.1 a.2.1 a.2.2 k := by
  unfold assign_line assignment_of
  rw [if_neg h1, if_neg h2, if_neg h3]
  cases split_keysym line with
  | none => rfl
  | some p =>
    obtain ⟨name, rest⟩ := p
    simp only []
    split_ifs <;> rfl

theorem assign_line_isSome (E : Env) (table : List (List Char × Int))
    (hnn : ∀ p ∈ table, 0 ≤ p.2) (line : List Char) (k : kbd_layout_t) :
    ∃ k1, assign_line E table line k = some k1 := by
  unfold assign_line
  cases split_keysym line with
  | none => exact ⟨k, rfl⟩
  | some p =>
    obtain ⟨name, rest⟩ := p
    simp only []
    split_ifs
    · exact ⟨k, rfl⟩
    · exact store_keysym_isSome E _ _ _ k (get_keysym_nonneg table hnn name)

theorem apply_assignments_append (E : Env) (l1 l2 : List (Int × Int × Bool))
    (k : kbd_layout_t) :
    apply_assignments E (l1 ++ l2) k =
      (apply_assignments E l1 k).bind (apply_assignments E l2) := by
  induction l1 generalizing k with
  | nil => rfl
  | cons a more ih =>
    simp only [List.cons_append, apply_assignments]
    cases store_keysym E a.1 a.2.1 a.2.2 k with
    | none => rfl
    | some k1 => exact ih k1

theorem parse_lines_sound (E : Env) (table : List (List Char × Int))
    (recurse : List Char → kbd_layout_t → Except Fault kbd_layout_t)
    (sub : List Char → Option (List (List Char)))
    (hrec : ∀ name k k1, recurse name k = .ok k1 →
      ∃ L, sub name = some L ∧
        apply_assignments E (L.filterMap (assignment_of E table)) k = some k1)
    (lines : List (List Char)) :
    ∀ k k1, parse_lines E table recurse lines k = .ok k1 →
      ∃ L, expand_lines sub lines = some L ∧
        apply_assignments E (L.filterMap (assignment_of E table)) k = some k1 := by
  induction lines with
  | nil =>
    intro k k1 h
    simp only [parse_lines, Except.ok.injEq] at h
    exact ⟨[], rfl, by rw [← h]; rfl⟩
  | cons line more ih =>
    intro k k1 h
    unfold parse_lines at h
    unfold expand_lines
    by_cases h1 : line.head? = some '#'
    · rw [if_pos h1] at h
      rw [if_pos h1]
      obtain ⟨L, hL, hA⟩ := ih k k1 h
      refine ⟨line :: L, by rw [hL]; rfl, ?_⟩
      rw [List.filterMap_cons]
      have : assignment_of E table line = none := by
        unfold assignment_of; rw [if_pos h1]
      rw [this]; exact hA
    · rw [if_neg h1] at h
      rw [if_neg h1]
      by_cases h2 : "map ".toList.isPrefixOf line = true
      · rw [if_pos h2] at h
        rw [if_pos h2]
        obtain ⟨L, hL, hA⟩ := ih k k1 h
        refine ⟨line :: L, by rw [hL]; rfl, ?_⟩
        rw [List.filterMap_cons]
        have : assignment_of E table line = none := by
          unfold assignment_of; rw [if_neg h1, if_pos h2]
        rw [this]; exact hA
      · rw [if_neg h2] at h
        rw [if_neg h2]
        by_cases h3 : "include ".toList.isPrefixOf line = true
        · rw [if_pos h3] at h
          rw [if_pos h3]
          cases hr : recurse (line.drop 8) k with
          | error e => rw [hr] at h; simp at h
          | ok k2 =>
            rw [hr] at h
            simp only [] at h
            obtain ⟨La, hLa, hAa⟩ := hrec _ _ _ hr
            obtain ⟨L, hL, hA⟩ := ih k2 k1 h
            refine ⟨La ++ L, by rw [hLa, hL], ?_⟩
            rw [List.filterMap_append, apply_assignments_append, hAa]
            exact hA
        · rw [if_neg h3] at h
          rw [if_neg h3]
          rw [assign_line_eq E table line k h1 h2 h3] at h
          cases ha : assignment_of E table line with
          | none =>
            rw [ha] at h
            simp only [] at h
            obtain ⟨L, hL, hA⟩ := ih k k1 h
            refine ⟨line :: L, by rw [hL]; rfl, ?_⟩
            rw [List.filterMap_cons, ha]; exact hA
          | some a =>
            rw [ha] at h
            simp only [] at h
            cases hs : store_keysym E a.1 a.2.1 a.2.2 k with
            | none => rw [hs] at h; simp at h
            | some k2 =>
              rw [hs] at h
              simp only [] at h
              obtain ⟨L, hL, hA⟩ := ih k2 k1 h
              refine ⟨line :: L, by rw [hL]; rfl, ?_⟩
              rw [List.filterMap_cons, ha]
              simp only [apply_assignments, hs]
              exact hA

theorem parse_keyboard_layout_sound (E : Env) (table : List (List Char × Int)) :
    ∀ (fuel : Nat) (language : List Char) (k0 r : Option kbd_layout_t),
      parse_keyboard_layout E table fuel language k0 = .ok r →
      ∃ l, assignments E table fuel language = some l ∧
        apply_assignments E l (k0.getD zero_layout) = some (r.getD (k0.getD zero_layout)) := by
  intro fuel
  induction fuel with
  | zero => intro language k0 r h; simp [parse_keyboard_layout] at h
  | succ fuel ih =>
    intro language k0 r h
    unfold parse_keyboard_layout at h
    unfold assignments processed_lines
    cases hf : E.qemu_find_file language with
    | none =>
      rw [hf] at h
      simp only [Except.ok.injEq] at h
      subst h
      exact ⟨[], rfl, rfl⟩
    | some filename =>
      rw [hf] at h
      simp only [] at h
      cases ho : E.fopen filename with
      | none =>
        rw [ho] at h
        simp only [Except.ok.injEq] at h
        subst h
        refine ⟨[], ?_, rfl⟩
        simp [ho]
      | some f =>
        rw [ho] at h
        simp only [] at h
        cases hp : parse_lines E table
            (fun name k1 => (parse_keyboard_layout E table fuel name (some k1)).map
              (fun r => r.getD k1)) (read_lines f) (k0.getD zero_layout) with
        | error e => rw [hp] at h; simp [Except.map] at h
        | ok k1 =>
          rw [hp] at h
          simp only [Except.map, Except.ok.injEq] at h
          subst h
          have hrec : ∀ name k k1,
              (fun name k1 => (parse_keyboard_layout E table fuel name (some k1)).map
                (fun r => r.getD k1)) name k = .ok k1 →
              ∃ L, processed_lines E fuel name = some L ∧
                apply_assignments E (L.filterMap (assignment_of E table)) k = some k1 := by
            intro name k k2 hk
            simp only [] at hk
            cases hq : parse_keyboard_layout E table fuel name (some k) with
            | error e => rw [hq] at hk; simp [Except.map] at hk
            | ok r2 =>
              rw [hq] at hk
              simp only [Except.map, Except.ok.injEq] at hk
              obtain ⟨l, hl, hA⟩ := ih name (some k) r2 hq
              unfold assignments at hl
              cases hpl : processed_lines E fuel name with
              | none => rw [hpl] at hl; simp at hl
              | some L =>
                rw [hpl] at hl
                simp only [Option.map_some', Option.some.injEq] at hl
                subst hl
                simp only [Option.getD_some] at hA
                exact ⟨L, rfl, by rw [hA, hk]⟩
          obtain ⟨L, hL, hA⟩ := parse_lines_sound E table _ _ hrec (read_lines f) _ _ hp
          refine ⟨L.filterMap (assignment_of E table), ?_, ?_⟩
          · simp [ho, hL]
          · simpa using hA

theorem last_keycode_cons (d s : Int) (a : Int × Int × Bool) (l : List (Int × Int × Bool)) :
    last_keycode d s (a :: l) = last_keycode (if a.1 = s then a.2.1 else d) s l := by
  unfold last_keycode
  by_cases h : a.1 = s
  · rw [List.filter_cons_of_pos (by simpa using h), List.getLast?_cons, if_pos h]
    cases (l.filter (fun a => decide (a.1 = s))).getLast? <;> rfl
  · rw [List.filter_cons_of_neg (by simpa using h), if_neg h]

theorem store_keysym_direct (E : Env) (keysym keycode : Int) (numlock : Bool)
    (k k1 : kbd_layout_t) (h : store_keysym E keysym keycode numlock k = some k1)
    (s : Int) (hs0 : 0 ≤ s) (hs1 : s < (E.MAX_NORMAL_KEYCODE : Int)) :
    k1.keysym2keycode s = if keysym = s then keycode else k.keysym2keycode s := by
  unfold store_keysym at h
  simp only [] at h
  by_cases hks : keysym = s
  · subst hks
    rw [if_pos hs1, if_neg (not_lt.mpr hs0)] at h
    simp only [Option.some.injEq] at h
    subst h
    simp
  · rw [if_neg hks]
    split_ifs at h <;> simp only [Option.some.injEq] at h <;> subst h <;>
      first
        | rfl
        | (simp only [Function.update_noteq (Ne.symm hks)])

theorem apply_assignments_direct (E : Env) (l : List (Int × Int × Bool)) :
    ∀ (k k1 : kbd_layout_t), apply_assignments E l k = some k1 →
      ∀ s : Int, 0 ≤ s → s < (E.MAX_NORMAL_KEYCODE : Int) →
        k1.keysym2keycode s = last_keycode (k.keysym2keycode s) s l := by
  induction l with
  | nil =>
    intro k k1 h s _ _
    simp only [apply_assignments, Option.some.injEq] at h
    subst h
    rfl
  | cons a more ih =>
    intro k k1 h s hs0 hs1
    unfold apply_assignments at h
    cases hst : store_keysym E a.1 a.2.1 a.2.2 k with
    | none => rw [hst] at h; simp at h
    | some k2 =>
      rw [hst] at h
      simp only [] at h
      rw [ih k2 k1 h s hs0 hs1, last_keycode_cons,
        store_keysym_direct E _ _ _ k k2 hst s hs0 hs1]

theorem store_keysym_extra (E : Env) (keysym keycode : Int) (numlock : Bool)
    (k k1 : kbd_layout_t) (h : store_keysym E keysym keycode numlock k = some k1) :
    k1.keysym2keycode_extra = k.keysym2keycode_extra ++
      (if (E.MAX_NORMAL_KEYCODE : Int) ≤ keysym ∧
          k.keysym2keycode_extra.length < E.MAX_EXTRA_COUNT
        then [(keysym, keycode)] else []) := by
  unfold store_keysym at h
  simp only [kbd_layout_t.extra_count] at h
  by_cases h1 : keysym < (E.MAX_NORMAL_KEYCODE : Int)
  · rw [if_pos h1] at h
    rw [if_neg (fun hc => absurd hc.1 (not_le.mpr h1))]
    split_ifs at h <;> simp only [Option.some.injEq] at h <;> subst h <;> simp
  · rw [if_neg h1] at h
    by_cases h3 : k.keysym2keycode_extra.length < E.MAX_EXTRA_COUNT
    · rw [if_pos ⟨not_lt.mp h1, h3⟩]
      cases numlock <;> simp only [Bool.false_eq_true, if_true, if_false] at h <;>
        rw [if_neg (by simp only [ge_iff_le, Nat.cast_le]; omega)] at h <;>
        simp only [Option.some.injEq] at h <;> subst h <;> rfl
    · rw [if_neg (fun hc => h3 hc.2)]
      cases numlock <;> simp only [Bool.false_eq_true, if_true, if_false] at h <;>
        rw [if_pos (by simp only [ge_iff_le, Nat.cast_le]; omega)] at h <;>
        simp only [Option.some.injEq] at h <;> subst h <;> simp

theorem apply_assignments_extra (E : Env) (l : List (Int × Int × Bool)) :
    ∀ (k k1 : kbd_layout_t), apply_assignments E l k = some k1 →
      k1.keysym2keycode_extra = k.keysym2keycode_extra ++
        (overflow_pairs E l).take (E.MAX_EXTRA_COUNT - k.keysym2keycode_extra.length) := by
  induction l with
  | nil =>
    intro k k1 h
    simp only [apply_assignments, Option.some.injEq] at h
    subst h
    simp [overflow_pairs]
  | cons a more ih =>
    intro k k1 h
    unfold apply_assignments at h
    cases hst : store_keysym E a.1 a.2.1 a.2.2 k with
    | none => rw [hst] at h; simp at h
    | some k2 =>
      rw [hst] at h
      simp only [] at h
      rw [ih k2 k1 h, store_keysym_extra E _ _ _ k k2 hst]
      unfold overflow_pairs
      by_cases ho : (E.MAX_NORMAL_KEYCODE : Int) ≤ a.1
      · rw [List.filter_cons_of_pos (by simpa using ho)]
        by_cases hfull : k.keysym2keycode_extra.length < E.MAX_EXTRA_COUNT
        · rw [if_pos ⟨ho, hfull⟩, List.map_cons, List.take_cons (by omega)]
          simp only [List.length_append, List.length_singleton, List.append_assoc,
            List.singleton_append]
          rw [show E.MAX_EXTRA_COUNT - (k.keysym2keycode_extra.length + 1) =
            E.MAX_EXTRA_COUNT - k.keysym2keycode_extra.length - 1 from by omega]
        · rw [if_neg (fun hc => hfull hc.2)]
          have hz : E.MAX_EXTRA_COUNT - k.keysym2keycode_extra.length = 0 := by omega
          simp [hz]
      · rw [List.filter_cons_of_neg (by simpa using ho), if_neg (fun hc => ho hc.1)]
        simp

theorem parse_lines_total (E : Env) (table : List (List Char × Int))
    (hnn : ∀ p ∈ table, 0 ≤ p.2)
    (recurse : List Char → kbd_layout_t → Except Fault kbd_layout_t)
    (lines : List (List Char)) :
    (∀ line ∈ lines, "include ".toList.isPrefixOf line = true →
        ∀ k, ∃ k1, recurse (line.drop 8) k = .ok k1) →
      ∀ k, ∃ k1, parse_lines E table recurse lines k = .ok k1 := by
  induction lines with
  | nil => intro _ k; exact ⟨k, rfl⟩
  | cons line more ih =>
    intro hrec k
    have ih1 := ih (fun l hl => hrec l (List.mem_cons_of_mem _ hl))
    unfold parse_lines
    split_ifs with h1 h2 h3
    · exact ih1 k
    · exact ih1 k
    · obtain ⟨k2, hk2⟩ := hrec line (List.mem_cons_self _ _) h3 k
      rw [hk2]
      exact ih1 k2
    · obtain ⟨k2, hk2⟩ := assign_line_isSome E table hnn line k
      rw [hk2]
      exact ih1 k2

theorem parse_keyboard_layout_total (E : Env) (table : List (List Char × Int))
    (hnn : ∀ p ∈ table, 0 ≤ p.2) (rank : List Char → Nat) (hrank : include_ranked E rank) :
    ∀ (fuel : Nat) (language : List Char) (k0 : Option kbd_layout_t), rank language < fuel →
      ∃ r, parse_keyboard_layout E table fuel language k0 = .ok r ∧
        (r = none ↔ (E.qemu_find_file language).bind E.fopen = none) := by
  intro fuel
  induction fuel with
  | zero => intro language k0 h; omega
  | succ fuel ih =>
    intro language k0 hlt
    unfold parse_keyboard_layout
    cases hf : E.qemu_find_file language with
    | none => exact ⟨none, rfl, by simp⟩
    | some filename =>
      simp only []
      cases ho : E.fopen filename with
      | none => exact ⟨none, rfl, by simp [ho]⟩
      | some f =>
        simp only []
        have hrec : ∀ line ∈ read_lines f, "include ".toList.isPrefixOf line = true →
            ∀ k, ∃ k1, (fun name k1 =>
              (parse_keyboard_layout E table fuel name (some k1)).map
                (fun r => r.getD k1)) (line.drop 8) k = .ok k1 := by
          intro line hl hp k
          have hr := hrank language filename f line hf ho hl hp
          obtain ⟨r, hr1, _⟩ := ih (line.drop 8) (some k) (by omega)
          exact ⟨r.getD k, by simp only [hr1, Except.map]⟩
        obtain ⟨k1, hk1⟩ := parse_lines_total E table hnn (fun name k1 =>
            (parse_keyboard_layout E table fuel name (some k1)).map (fun r => r.getD k1))
          (read_lines f) hrec
          (k0.getD zero_layout)
        refine ⟨some k1, ?_, by simp [ho]⟩
        rw [hk1]
        rfl


theorem assignment_of_ne_zero (E : Env) (table : List (List Char × Int)) (line : List Char)
    (a : Int × Int × Bool) (h : assignment_of E table line = some a) : a.1 ≠ 0 := by
  unfold assignment_of at h
  split_ifs at h
  cases hs : split_keysym line with
  | none => rw [hs] at h; simp at h
  | some p =>
    rw [hs] at h
    simp only [] at h
    split_ifs at h with hz
    simp only [Option.some.injEq] at h
    rw [← h]
    exact hz

theorem sample_env_ranked (normal extra : Nat) (files : List (List Char × List Char))
    (rank : List Char → Nat)
    (h : ∀ p ∈ files, ∀ line ∈ read_lines p.2, "include ".toList.isPrefixOf line = true →
      rank (line.drop 8) < rank p.1) :
    include_ranked (sample_env normal extra files) rank := by
  intro language filename f line hfind hopen hmem hpre
  simp only [sample_env] at hfind hopen
  split_ifs at hfind
  simp only [Option.some.injEq] at hfind
  subst hfind
  have hin : (language, f) ∈ files := by
    clear h hmem
    induction files with
    | nil => simp [List.lookup] at hopen
    | cons q rest ih =>
      obtain ⟨qa, qb⟩ := q
      by_cases hq : language = qa
      · subst hq
        simp only [List.lookup, beq_self_eq_true, Option.some.injEq] at hopen
        subst hopen
        exact List.mem_cons_self _ _
      · have hq2 : (language == qa) = false := by simpa using hq
        simp only [List.lookup, hq2] at hopen
        rename_i hsome
        have hsome2 : (List.lookup language rest).isSome = true := by
          rw [hopen]; rfl
        exact List.mem_cons_of_mem _ (ih hsome2 hopen)
  exact h (language, f) hin line hmem hpre

theorem parse_loop_out_of_fuel (table : List (List Char × Int)) :
    ∀ (fuel : Nat) (k0 : Option kbd_layout_t),
      parse_keyboard_layout (sample_env 512 256 loop_files) table fuel "loop".toList k0 =
        .error Fault.out_of_fuel := by
  intro fuel
  induction fuel with
  | zero => intro k0; rfl
  | succ fuel ih =>
    intro k0
    have hf : (sample_env 512 256 loop_files).qemu_find_file "loop".toList =
        some "loop".toList := by decide
    have ho : (sample_env 512 256 loop_files).fopen "loop".toList =
        some "include loop\n".toList := by decide
    have hr : read_lines "include loop\n".toList = ["include loop".toList] := by decide
    unfold parse_keyboard_layout
    rw [hf]
    simp only []
    rw [ho]
    simp only []
    rw [hr]
    unfold parse_lines
    rw [if_neg (by decide), if_neg (by decide), if_pos (by decide)]
    have hd : List.drop 8 "include loop".toList = "loop".toList := by decide
    simp only [hd, ih, Except.map]

/-- C8 (counterexample): a top-level keymap that is found and opened, yet no layout is
returned.  The keymap `loop` holds the line `include loop`: the parse recurses
without end, and no fuel gives a result.  The keymap `minimal` assigns to the name
`a`, whose keysym is -1 in `negative_table`: -1 is below `MAX_NORMAL_KEYCODE`, and
the store `k->keysym2keycode[-1]` is outside the direct table. -/
theorem init_keyboard_layout_no_layout :
    (((sample_env 512 256 loop_files).qemu_find_file "loop".toList).bind
          (sample_env 512 256 loop_files).fopen = some "include loop\n".toList ∧
        ¬ ∃ fuel k, init_keyboard_layout (sample_env 512 256 loop_files) [] fuel
          "loop".toList = .ok (some k)) ∧
      (((sample_env 512 256 minimal_files).qemu_find_file "minimal".toList).bind
          (sample_env 512 256 minimal_files).fopen = some "a 30\nb 31\n".toList ∧
        init_keyboard_layout (sample_env 512 256 minimal_files) negative_table 1
          "minimal".toList = .error Fault.undefined_behaviour) := by
  refine ⟨⟨by decide, ?_⟩, by decide, rfl⟩
  rintro ⟨fuel, k, h⟩
  unfold init_keyboard_layout at h
  rw [parse_loop_out_of_fuel] at h
  exact absurd h (by simp)

/-- C8 (amended): `init_keyboard_layout` returns `NULL` when the top-level keymap is
not found or not opened.  When it is found and opened the call never returns
`NULL`, and it returns a layout, whatever the lines hold, as soon as the fuel
exceeds the rank of the keymap, provided that the include structure is well
founded (every `include` line names a keymap of smaller rank) and no keysym of the
name table is below 0. -/
theorem init_keyboard_layout_fails_only_at_top (E : Env) (table : List (List Char × Int))
    (language : List Char) (fuel : Nat) :
    ((E.qemu_find_file language).bind E.fopen = none →
        init_keyboard_layout E table (fuel + 1) language = .ok none) ∧
      ((E.qemu_find_file language).bind E.fopen ≠ none →
        init_keyboard_layout E table fuel language ≠ .ok none) ∧
      ((E.qemu_find_file language).bind E.fopen ≠ none → (∀ p ∈ table, 0 ≤ p.2) →
        ∀ rank : List Char → Nat, include_ranked E rank → rank language < fuel →
          ∃ k, init_keyboard_layout E table fuel language = .ok (some k)) := by
  refine ⟨?_, ?_, ?_⟩
  · intro h
    unfold init_keyboard_layout parse_keyboard_layout
    cases hf : E.qemu_find_file language with
    | none => rfl
    | some filename =>
      rw [hf] at h
      simp only [Option.some_bind] at h
      simp only [h]
  · intro h
    unfold init_keyboard_layout
    cases fuel with
    | zero => simp [parse_keyboard_layout]
    | succ fuel =>
      unfold parse_keyboard_layout
      cases hf : E.qemu_find_file language with
      | none => rw [hf] at h; simp at h
      | some filename =>
        rw [hf] at h
        simp only [Option.some_bind] at h
        cases ho : E.fopen filename with
        | none => exact absurd ho h
        | some f =>
          simp only [ho]
          generalize parse_lines E table
            (fun name k1 => (parse_keyboard_layout E table fuel name (some k1)).map
              (fun r => r.getD k1)) (read_lines f)
              ((none : Option kbd_layout_t).getD zero_layout) = res
          cases res <;> simp [Except.map]
  · intro h hnn rank hrank hlt
    obtain ⟨r, hr, hiff⟩ :=
      parse_keyboard_layout_total E table hnn rank hrank fuel language none hlt
    cases r with
    | none => exact absurd (hiff.mp rfl) h
    | some k => exact ⟨k, hr⟩

/-- C8 (witness): with the files of `mixed_files` the keymap `missing` gives `NULL`, and
the keymap `top` gives a layout although it holds an include that is not found, a
line without a space, an unknown name and an assignment to a full overflow table
(`MAX_EXTRA_COUNT` is 1 here). -/
theorem init_keyboard_layout_fails_only_at_top_witness :
    (init_keyboard_layout (sample_env 512 1 mixed_files) mixed_table 2 "missing".toList =
        .ok none) ∧
      (init_keyboard_layout (sample_env 512 1 mixed_files) mixed_table 2 "top".toList ≠
        .ok none) ∧
      (∃ k, init_keyboard_layout (sample_env 512 1 mixed_files) mixed_table 2 "top".toList =
        .ok (some k)) :=
  ⟨(init_keyboard_layout_fails_only_at_top (sample_env 512 1 mixed_files) mixed_table
      "missing".toList 1).1 (by decide),
   (init_keyboard_layout_fails_only_at_top (sample_env 512 1 mixed_files) mixed_table
      "top".toList 2).2.1 (by decide),
   (init_keyboard_layout_fails_only_at_top (sample_env 512 1 mixed_files) mixed_table
      "top".toList 2).2.2 (by decide) (by decide) mixed_rank
      (sample_env_ranked 512 1 mixed_files mixed_rank (by decide)) (by decide)⟩

/-- C9: after a call of `init_keyboard_layout` that returns a layout, every entry `s`
of the direct table (`0 <= s < MAX_NORMAL_KEYCODE`) holds the keycode of the last
assignment to `s` in processing order, included files standing at the place of
their `include` line, and 0 when no assignment is to `s`; no assignment is to the
keysym 0. -/
theorem init_keyboard_layout_direct (E : Env) (table : List (List Char × Int)) (fuel : Nat)
    (language : List Char) (k : kbd_layout_t)
    (hok : init_keyboard_layout E table fuel language = .ok (some k)) :
    ∃ l, assignments E table fuel language = some l ∧ (∀ a ∈ l, a.1 ≠ 0) ∧
      ∀ s : Int, 0 ≤ s → s < (E.MAX_NORMAL_KEYCODE : Int) →
        k.keysym2keycode s = last_keycode 0 s l ∧
        ((∀ a ∈ l, a.1 ≠ s) → k.keysym2keycode s = 0) := by
  obtain ⟨l, hl, hA⟩ := parse_keyboard_layout_sound E table fuel language none (some k) hok
  simp only [Option.getD_none, Option.getD_some] at hA
  refine ⟨l, hl, ?_, ?_⟩
  · intro a ha
    unfold assignments at hl
    cases hp : processed_lines E fuel language with
    | none => rw [hp] at hl; simp at hl
    | some L =>
      rw [hp] at hl
      simp only [Option.map_some', Option.some.injEq] at hl
      subst hl
      obtain ⟨line, _, hline⟩ := List.mem_filterMap.mp ha
      exact assignment_of_ne_zero E table line a hline
  · intro s hs0 hs1
    have hd := apply_assignments_direct E l zero_layout k hA s hs0 hs1
    refine ⟨hd, ?_⟩
    intro hno
    rw [hd]
    unfold last_keycode
    have : l.filter (fun a => decide (a.1 = s)) = [] := by
      rw [List.filter_eq_nil_iff]
      intro a ha
      simpa using hno a ha
    rw [this]
    rfl

/-- C9 (witness): the minimal layout file of the specification with the name table
`a` = 1, `b` = 2 gives `direct[1] = 30` and `direct[2] = 31`. -/
theorem init_keyboard_layout_direct_witness :
    init_keyboard_layout (sample_env 512 256 minimal_files) minimal_table 1 "minimal".toList =
        .ok (some minimal_layout) ∧
      minimal_layout.keysym2keycode 1 = 30 ∧ minimal_layout.keysym2keycode 2 = 31 ∧
      minimal_layout.keysym2keycode 3 = 0 ∧
      ∃ l, assignments (sample_env 512 256 minimal_files) minimal_table 1 "minimal".toList =
          some l ∧ (∀ a ∈ l, a.1 ≠ 0) ∧
        ∀ s : Int, 0 ≤ s → s < ((sample_env 512 256 minimal_files).MAX_NORMAL_KEYCODE : Int) →
          minimal_layout.keysym2keycode s = last_keycode 0 s l ∧
          ((∀ a ∈ l, a.1 ≠ s) → minimal_layout.keysym2keycode s = 0) :=
  ⟨rfl, rfl, rfl, rfl,
   init_keyboard_layout_direct (sample_env 512 256 minimal_files) minimal_table 1
     "minimal".toList minimal_layout rfl⟩

/-- C10: after a call of `init_keyboard_layout` that returns a layout, the overflow
table is the first `MAX_EXTRA_COUNT` of the (keysym, keycode) pairs of the
assignments to keysyms at or above `MAX_NORMAL_KEYCODE`, in processing order; it
has at most `MAX_EXTRA_COUNT` entries, and of `MAX_EXTRA_COUNT + 1` such assignments
all but the last are kept. -/
theorem init_keyboard_layout_overflow (E : Env) (table : List (List Char × Int)) (fuel : Nat)
    (language : List Char) (k : kbd_layout_t)
    (hok : init_keyboard_layout E table fuel language = .ok (some k)) :
    ∃ l, assignments E table fuel language = some l ∧
      k.keysym2keycode_extra = (overflow_pairs E l).take E.MAX_EXTRA_COUNT ∧
      k.keysym2keycode_extra.length ≤ E.MAX_EXTRA_COUNT ∧
      ((overflow_pairs E l).length = E.MAX_EXTRA_COUNT + 1 →
        k.keysym2keycode_extra = (overflow_pairs E l).dropLast) := by
  obtain ⟨l, hl, hA⟩ := parse_keyboard_layout_sound E table fuel language none (some k) hok
  simp only [Option.getD_none, Option.getD_some] at hA
  have he := apply_assignments_extra E l zero_layout k hA
  simp only [zero_layout, List.nil_append, List.length_nil, Nat.sub_zero] at he
  refine ⟨l, hl, he, ?_, ?_⟩
  · rw [he, List.length_take]
    exact Nat.min_le_left _ _
  · intro hlen
    rw [he, List.dropLast_eq_take, hlen]
    rfl

/-- C10 (witness): with `MAX_EXTRA_COUNT` = 2, three assignments to overflow keysyms
leave the first two in the overflow table, in order. -/
theorem init_keyboard_layout_overflow_witness :
    init_keyboard_layout (sample_env 512 2 overflow_files) overflow_table 1 "over".toList =
        .ok (some overflow_layout) ∧
      assignments (sample_env 512 2 overflow_files) overflow_table 1 "over".toList =
        some [(0x1000, 1, false), (0x1001, 2, false), (0x1002, 3, false)] ∧
      overflow_layout.keysym2keycode_extra = [(0x1000, 1), (0x1001, 2)] ∧
      ∃ l, assignments (sample_env 512 2 overflow_files) overflow_table 1 "over".toList =
          some l ∧
        overflow_layout.keysym2keycode_extra =
          (overflow_pairs (sample_env 512 2 overflow_files) l).take
            (sample_env 512 2 overflow_files).MAX_EXTRA_COUNT ∧
        overflow_layout.keysym2keycode_extra.length ≤
          (sample_env 512 2 overflow_files).MAX_EXTRA_COUNT ∧
        ((overflow_pairs (sample_env 512 2 overflow_files) l).length =
            (sample_env 512 2 overflow_files).MAX_EXTRA_COUNT + 1 →
          overflow_layout.keysym2keycode_extra =
            (overflow_pairs (sample_env 512 2 overflow_files) l).dropLast) :=
  ⟨rfl, by decide, rfl,
   init_keyboard_layout_overflow (sample_env 512 2 overflow_files) overflow_table 1
     "over".toList overflow_layout rfl⟩

/-! ## Theorems on the range lists -/

theorem key_range_covers_eq_one (x : Int) (s : List key_range) :
    key_range_covers x s = 1 ↔ ∃ kr ∈ s, kr.start ≤ x ∧ x ≤ kr.end_ := by
  induction s with
  | nil => simp [key_range_covers]
  | cons kr next ih =>
    unfold key_range_covers
    by_cases h : x ≥ kr.start ∧ x ≤ kr.end_
    · rw [if_pos h]
      simp only [List.mem_cons, true_iff]
      exact ⟨kr, Or.inl rfl, h⟩
    · rw [if_neg h, ih]
      constructor
      · rintro ⟨q, hq, hx⟩
        exact ⟨q, List.mem_cons_of_mem _ hq, hx⟩
      · rintro ⟨q, hq, hx⟩
        rcases List.mem_cons.mp hq with rfl | hq
        · exact absurd hx h
        · exact ⟨q, hq, hx⟩

theorem key_range_covers_zero_or_one (x : Int) (s : List key_range) :
    key_range_covers x s = 0 ∨ key_range_covers x s = 1 := by
  induction s with
  | nil => left; rfl
  | cons kr next ih =>
    unfold key_range_covers
    split_ifs
    · right; rfl
    · exact ih

theorem key_range_scan_none (v : Int) (s : List key_range) :
    key_range_scan v s = none ↔
      ∀ kr ∈ s, ¬ (kr.start ≤ v ∧ v ≤ kr.end_) ∧ v ≠ kr.start - 1 ∧ v ≠ kr.end_ + 1 := by
  induction s with
  | nil => simp [key_range_scan]
  | cons kr next ih =>
    unfold key_range_scan
    split_ifs with h1 h2 h3
    · simp only [List.mem_cons, forall_eq_or_imp, false_iff, reduceCtorEq]
      intro hc; exact hc.1.1 h1
    · simp only [List.mem_cons, forall_eq_or_imp, false_iff, reduceCtorEq]
      intro hc; exact hc.1.2.1 h2
    · simp only [List.mem_cons, forall_eq_or_imp, false_iff, reduceCtorEq]
      intro hc; exact hc.1.2.2 h3
    · simp only [Option.map_eq_none', ih, List.mem_cons, forall_eq_or_imp]
      constructor
      · intro h; exact ⟨⟨h1, h2, h3⟩, h⟩
      · intro h; exact h.2

/-- The members of the list after the loop found a node. -/
theorem key_range_scan_some (v : Int) (s l : List key_range)
    (h : key_range_scan v s = some l) :
    l.length = s.length ∧
      ∀ x : Int, (∃ kr ∈ l, kr.start ≤ x ∧ x ≤ kr.end_) →
        (∃ kr ∈ s, kr.start ≤ x ∧ x ≤ kr.end_) ∨ x = v := by
  induction s generalizing l with
  | nil => simp [key_range_scan] at h
  | cons kr next ih =>
    unfold key_range_scan at h
    split_ifs at h with h1 h2 h3
    · simp only [Option.some.injEq] at h
      subst h
      exact ⟨rfl, fun x hx => Or.inl hx⟩
    · simp only [Option.some.injEq] at h
      subst h
      refine ⟨rfl, ?_⟩
      rintro x ⟨q, hq, hx⟩
      rcases List.mem_cons.mp hq with rfl | hq
      · simp only at hx
        by_cases hxv : x = v
        · exact Or.inr hxv
        · exact Or.inl ⟨kr, List.mem_cons_self _ _, by omega, hx.2⟩
      · exact Or.inl ⟨q, List.mem_cons_of_mem _ hq, hx⟩
    · simp only [Option.some.injEq] at h
      subst h
      refine ⟨rfl, ?_⟩
      rintro x ⟨q, hq, hx⟩
      rcases List.mem_cons.mp hq with rfl | hq
      · simp only at hx
        by_cases hxv : x = v
        · exact Or.inr hxv
        · exact Or.inl ⟨kr, List.mem_cons_self _ _, hx.1, by omega⟩
      · exact Or.inl ⟨q, List.mem_cons_of_mem _ hq, hx⟩
    · cases hs : key_range_scan v next with
      | none => rw [hs] at h; simp at h
      | some l2 =>
        rw [hs] at h
        simp only [Option.map_some', Option.some.injEq] at h
        subst h
        obtain ⟨hlen, hmem⟩ := ih l2 hs
        refine ⟨by simp [hlen], ?_⟩
        rintro x ⟨q, hq, hx⟩
        rcases List.mem_cons.mp hq with rfl | hq
        · exact Or.inl ⟨q, List.mem_cons_self _ _, hx⟩
        · rcases hmem x ⟨q, hq, hx⟩ with ⟨r, hr, hrx⟩ | hxv
          · exact Or.inl ⟨r, List.mem_cons_of_mem _ hr, hrx⟩
          · exact Or.inr hxv

/-- The loop never loses a member, and it keeps `start <= end`; the value it was
called with is a member afterwards when the intervals have `start <= end`. -/
theorem key_range_scan_mono (v : Int) (s l : List key_range)
    (h : key_range_scan v s = some l) :
    (∀ x : Int, (∃ kr ∈ s, kr.start ≤ x ∧ x ≤ kr.end_) →
        ∃ kr ∈ l, kr.start ≤ x ∧ x ≤ kr.end_) ∧
      (range_wf s → range_wf l ∧ ∃ kr ∈ l, kr.start ≤ v ∧ v ≤ kr.end_) := by
  induction s generalizing l with
  | nil => simp [key_range_scan] at h
  | cons kr next ih =>
    unfold key_range_scan at h
    split_ifs at h with h1 h2 h3
    · simp only [Option.some.injEq] at h
      subst h
      exact ⟨fun x hx => hx, fun hw => ⟨hw, kr, List.mem_cons_self _ _, h1⟩⟩
    · simp only [Option.some.injEq] at h
      subst h
      have hkr : ∀ hw : range_wf (kr :: next), kr.start ≤ kr.end_ :=
        fun hw => hw kr (List.mem_cons_self _ _)
      refine ⟨?_, fun hw => ⟨?_, ⟨_, List.mem_cons_self _ _, ?_⟩⟩⟩
      · rintro x ⟨q, hq, hx⟩
        rcases List.mem_cons.mp hq with rfl | hq
        · exact ⟨_, List.mem_cons_self _ _, by simp only; omega, hx.2⟩
        · exact ⟨q, List.mem_cons_of_mem _ hq, hx⟩
      · intro q hq
        rcases List.mem_cons.mp hq with rfl | hq
        · have := hkr hw
          simp only; omega
        · exact hw q (List.mem_cons_of_mem _ hq)
      · have := hkr hw
        simp only; omega
    · simp only [Option.some.injEq] at h
      subst h
      have hkr : ∀ hw : range_wf (kr :: next), kr.start ≤ kr.end_ :=
        fun hw => hw kr (List.mem_cons_self _ _)
      refine ⟨?_, fun hw => ⟨?_, ⟨_, List.mem_cons_self _ _, ?_⟩⟩⟩
      · rintro x ⟨q, hq, hx⟩
        rcases List.mem_cons.mp hq with rfl | hq
        · exact ⟨_, List.mem_cons_self _ _, hx.1, by simp only; omega⟩
        · exact ⟨q, List.mem_cons_of_mem _ hq, hx⟩
      · intro q hq
        rcases List.mem_cons.mp hq with rfl | hq
        · have := hkr hw
          simp only; omega
        · exact hw q (List.mem_cons_of_mem _ hq)
      · have := hkr hw
        simp only; omega
    · cases hs : key_range_scan v next with
      | none => rw [hs] at h; simp at h
      | some l2 =>
        rw [hs] at h
        simp only [Option.map_some', Option.some.injEq] at h
        subst h
        obtain ⟨hmono, hwf⟩ := ih l2 hs
        refine ⟨?_, fun hw => ?_⟩
        · rintro x ⟨q, hq, hx⟩
          rcases List.mem_cons.mp hq with rfl | hq
          · exact ⟨q, List.mem_cons_self _ _, hx⟩
          · obtain ⟨r, hr, hrx⟩ := hmono x ⟨q, hq, hx⟩
            exact ⟨r, List.mem_cons_of_mem _ hr, hrx⟩
        · obtain ⟨hw2, r, hr, hrv⟩ := hwf (fun q hq => hw q (List.mem_cons_of_mem _ hq))
          refine ⟨?_, r, List.mem_cons_of_mem _ hr, hrv⟩
          intro q hq
          rcases List.mem_cons.mp hq with rfl | hq
          · exact hw q (List.mem_cons_self _ _)
          · exact hw2 q hq

theorem add_to_key_range_wf (s : List key_range) (v : Int) (hw : range_wf s) :
    range_wf (add_to_key_range s v) := by
  unfold add_to_key_range
  cases hs : key_range_scan v s with
  | none =>
    intro q hq
    rcases List.mem_cons.mp hq with rfl | hq
    · exact le_refl _
    · exact hw q hq
  | some l => exact ((key_range_scan_mono v s l hs).2 hw).1

theorem add_to_key_range_covers (s : List key_range) (v x : Int) (hw : range_wf s) :
    key_range_covers x (add_to_key_range s v) = 1 ↔ key_range_covers x s = 1 ∨ x = v := by
  rw [key_range_covers_eq_one, key_range_covers_eq_one]
  unfold add_to_key_range
  cases hs : key_range_scan v s with
  | none =>
    simp only [List.mem_cons]
    constructor
    · rintro ⟨q, hq | hq, hx⟩
      · subst hq
        simp only at hx
        exact Or.inr (by omega)
      · exact Or.inl ⟨q, hq, hx⟩
    · rintro (⟨q, hq, hx⟩ | hxv)
      · exact ⟨q, Or.inr hq, hx⟩
      · exact ⟨_, Or.inl rfl, by simp only; omega⟩
  | some l =>
    simp only
    constructor
    · exact (key_range_scan_some v s l hs).2 x
    · rintro (hx | hxv)
      · exact (key_range_scan_mono v s l hs).1 x hx
      · subst hxv
        exact ((key_range_scan_mono x s l hs).2 hw).2

theorem insert_all_append (vs ws : List Int) :
    insert_all (vs ++ ws) = ws.foldl add_to_key_range (insert_all vs) := by
  unfold insert_all
  rw [List.foldl_append]

theorem foldl_add_wf (vs : List Int) :
    ∀ s : List key_range, range_wf s → range_wf (vs.foldl add_to_key_range s) := by
  induction vs with
  | nil => intro s hs; exact hs
  | cons v vs ih =>
    intro s hs
    exact ih _ (add_to_key_range_wf s v hs)

theorem insert_all_wf (vs : List Int) : range_wf (insert_all vs) :=
  foldl_add_wf vs [] (fun _ h => absurd h (List.not_mem_nil _))

theorem foldl_add_covers (vs : List Int) :
    ∀ (s : List key_range) (x : Int), range_wf s →
      (key_range_covers x (vs.foldl add_to_key_range s) = 1 ↔
        key_range_covers x s = 1 ∨ x ∈ vs) := by
  induction vs with
  | nil => intro s x _; simp
  | cons v vs ih =>
    intro s x hs
    rw [List.foldl_cons, ih _ x (add_to_key_range_wf s v hs),
      add_to_key_range_covers s v x hs, List.mem_cons, or_assoc]

/-- C15: in a range list built from the empty list by insertions every inserted
value is covered; an insertion never removes a member of any list, and the value
inserted is a member afterwards (for a list whose intervals have `start <= end`, as
every list built by insertions has). -/
theorem insert_all_covers_inserted (vs : List Int) :
    (∀ v ∈ vs, key_range_covers v (insert_all vs) = 1) ∧
      range_wf (insert_all vs) ∧
      (∀ v x : Int, key_range_covers v (add_to_key_range (insert_all vs) v) = 1 ∧
        (key_range_covers x (insert_all vs) = 1 →
          key_range_covers x (add_to_key_range (insert_all vs) v) = 1)) ∧
      (∀ (s : List key_range) (v x : Int),
        (range_wf s → key_range_covers v (add_to_key_range s v) = 1) ∧
        (key_range_covers x s = 1 → key_range_covers x (add_to_key_range s v) = 1)) := by
  have hmono : ∀ (s : List key_range) (v x : Int),
      key_range_covers x s = 1 → key_range_covers x (add_to_key_range s v) = 1 := by
    intro s v x hx
    rw [key_range_covers_eq_one] at hx ⊢
    unfold add_to_key_range
    cases hs : key_range_scan v s with
    | none =>
      obtain ⟨q, hq, hqx⟩ := hx
      exact ⟨q, List.mem_cons_of_mem _ hq, hqx⟩
    | some l => exact (key_range_scan_mono v s l hs).1 x hx
  refine ⟨?_, insert_all_wf vs, ?_, ?_⟩
  · intro v hv
    unfold insert_all
    rw [foldl_add_covers vs [] v (fun _ h => absurd h (List.not_mem_nil _))]
    exact Or.inr hv
  · intro v x
    exact ⟨(add_to_key_range_covers _ v v (insert_all_wf vs)).mpr (Or.inr rfl),
      hmono _ v x⟩
  · intro s v x
    exact ⟨fun hw => (add_to_key_range_covers s v v hw).mpr (Or.inr rfl), hmono s v x⟩

/-- C15 (witness): after the insertions 5, 1, 3 the values 5, 1 and 3 are covered, and
4 is not. -/
theorem insert_all_covers_inserted_witness :
    (5 : Int) ∈ [5, 1, 3] ∧ key_range_covers 5 (insert_all [5, 1, 3]) = 1 ∧
      key_range_covers 1 (insert_all [5, 1, 3]) = 1 ∧
      key_range_covers 3 (insert_all [5, 1, 3]) = 1 ∧
      key_range_covers 4 (insert_all [5, 1, 3]) = 0 :=
  ⟨by decide, (insert_all_covers_inserted [5, 1, 3]).1 5 (by decide),
   (insert_all_covers_inserted [5, 1, 3]).1 1 (by decide),
   (insert_all_covers_inserted [5, 1, 3]).1 3 (by decide), by decide⟩

/-- C16: `get_keysym` returns the keysym of the first entry, in table order, whose name
is the given one, and 0 when no entry has the name; the result is 0 exactly when no
entry has the name or the first such entry has the keysym 0; the entries after the
first match do not enter the result. -/
theorem get_keysym_first_match (table : List (List Char × Int)) (name : List Char) :
    (get_keysym table name =
        match table.find? (fun p => decide (p.1 = name)) with
        | some p => p.2
        | none => 0) ∧
      (get_keysym table name = 0 ↔
        (∀ p ∈ table, p.1 ≠ name) ∨
          ∃ p, table.find? (fun p => decide (p.1 = name)) = some p ∧ p.2 = 0) ∧
      (∀ (before : List (List Char × Int)) (p : List Char × Int)
          (after : List (List Char × Int)),
        table = before ++ p :: after → (∀ q ∈ before, q.1 ≠ name) → p.1 = name →
          get_keysym table name = p.2 ∧
            ∀ other : List (List Char × Int), get_keysym (before ++ p :: other) name = p.2) := by
  have h1 : ∀ t : List (List Char × Int), get_keysym t name =
      match t.find? (fun p => decide (p.1 = name)) with
      | some p => p.2
      | none => 0 := by
    intro t
    induction t with
    | nil => rfl
    | cons q rest ih =>
      unfold get_keysym
      by_cases hq : q.1 = name
      · rw [if_pos hq, List.find?_cons_of_pos _ (by simpa using hq)]
      · rw [if_neg hq, List.find?_cons_of_neg _ (by simpa using hq)]
        exact ih
  have h3 : ∀ (before : List (List Char × Int)) (p : List Char × Int)
      (other : List (List Char × Int)), (∀ q ∈ before, q.1 ≠ name) → p.1 = name →
      get_keysym (before ++ p :: other) name = p.2 := by
    intro before p other hb hp
    induction before with
    | nil =>
      simp only [List.nil_append]
      unfold get_keysym
      rw [if_pos hp]
    | cons q rest ih =>
      simp only [List.cons_append]
      unfold get_keysym
      rw [if_neg (hb q (List.mem_cons_self _ _))]
      exact ih (fun r hr => hb r (List.mem_cons_of_mem _ hr))
  refine ⟨h1 table, ?_, ?_⟩
  · rw [h1 table]
    cases hf : table.find? (fun p => decide (p.1 = name)) with
    | none =>
      simp only [true_iff]
      left
      intro p hp
      have := List.find?_eq_none.mp hf p hp
      simpa using this
    | some p =>
      simp only
      constructor
      · intro hz; exact Or.inr ⟨p, rfl, hz⟩
      · rintro (hno | ⟨q, hq, hz⟩)
        · have hmem := List.mem_of_find?_eq_some hf
          have hpn := List.find?_some hf
          exact absurd (by simpa using hpn) (hno p hmem)
        · simp only [Option.some.injEq] at hq
          rw [hq]; exact hz
  · intro before p after ht hb hp
    exact ⟨by rw [ht]; exact h3 before p after hb hp, fun other => h3 before p other hb hp⟩

/-- C16 (witness): in a table with two entries for the name `a` the first one is
returned, whatever follows it; an unknown name gives 0. -/
theorem get_keysym_first_match_witness :
    get_keysym [("b".toList, 7), ("a".toList, 1), ("a".toList, 2)] "a".toList = 1 ∧
      (∀ other : List (List Char × Int),
        get_keysym ([("b".toList, 7)] ++ ("a".toList, 1) :: other) "a".toList = 1) ∧
      get_keysym [("b".toList, 7), ("a".toList, 1), ("a".toList, 2)] "c".toList = 0 :=
  ⟨((get_keysym_first_match [("b".toList, 7), ("a".toList, 1), ("a".toList, 2)]
      "a".toList).2.2 [("b".toList, 7)] ("a".toList, 1) [("a".toList, 2)] rfl
      (by decide) rfl).1,
   ((get_keysym_first_match [("b".toList, 7), ("a".toList, 1), ("a".toList, 2)]
      "a".toList).2.2 [("b".toList, 7)] ("a".toList, 1) [("a".toList, 2)] rfl
      (by decide) rfl).2,
   by decide⟩

/-- C17 (counterexample): the insertions 1, 3, 2 give the intervals `[2,3]` and `[1,1]`,
which are adjacent: 2 extends the first interval scanned, `[3,3]`, and `[1,1]` is
not looked at.  One more insertion of 1 gives `[1,3]` and `[1,1]`, which overlap. -/
theorem insert_all_not_separated :
    insert_all [1, 3, 2] = [⟨2, 3⟩, ⟨1, 1⟩] ∧ ¬ separated (insert_all [1, 3, 2]) ∧
      insert_all [1, 3, 2, 1] = [⟨1, 3⟩, ⟨1, 1⟩] ∧ ¬ separated (insert_all [1, 3, 2, 1]) := by
  refine ⟨by decide, ?_, by decide, ?_⟩
  · rw [show insert_all [1, 3, 2] = [⟨2, 3⟩, ⟨1, 1⟩] from by decide]
    unfold separated
    decide
  · rw [show insert_all [1, 3, 2, 1] = [⟨1, 3⟩, ⟨1, 1⟩] from by decide]
    unfold separated
    decide

/-- C17 (amended): in every range list reached from the empty list by insertions every
interval has `start <= end`; an insertion that finds no interval to keep or extend
puts a new interval `[v, v]` in front, and this new interval is separated from
every interval of the list by a gap of at least 2. -/
theorem insert_all_invariant (vs : List Int) (v : Int) :
    range_wf (insert_all vs) ∧ range_wf (add_to_key_range (insert_all vs) v) ∧
      (key_range_scan v (insert_all vs) = none →
        add_to_key_range (insert_all vs) v = ⟨v, v⟩ :: insert_all vs ∧
          ∀ kr ∈ insert_all vs, gap2 ⟨v, v⟩ kr) ∧
      (key_range_scan v (insert_all vs) ≠ none →
        (add_to_key_range (insert_all vs) v).length = (insert_all vs).length) := by
  refine ⟨insert_all_wf vs, add_to_key_range_wf _ v (insert_all_wf vs), ?_, ?_⟩
  · intro hs
    refine ⟨by unfold add_to_key_range; rw [hs], ?_⟩
    intro kr hkr
    have h := (key_range_scan_none v (insert_all vs)).mp hs kr hkr
    have hw := insert_all_wf vs kr hkr
    unfold gap2
    simp only
    obtain ⟨h1, h2, h3⟩ := h
    by_cases hlt : v < kr.start
    · left; omega
    · right
      have : ¬ v ≤ kr.end_ := fun hle => h1 ⟨by omega, hle⟩
      omega
  · intro hs
    cases hk : key_range_scan v (insert_all vs) with
    | none => exact absurd hk hs
    | some l =>
      unfold add_to_key_range
      rw [hk]
      exact (key_range_scan_some v _ l hk).1

/-- C17 (witness): after the insertions 5, 1 the value 3 finds no interval and the new
interval `[3,3]` is put in front. -/
theorem insert_all_invariant_witness :
    key_range_scan 3 (insert_all [5, 1]) = none ∧
      add_to_key_range (insert_all [5, 1]) 3 = ⟨3, 3⟩ :: insert_all [5, 1] ∧
      (∀ kr ∈ insert_all [5, 1], gap2 ⟨3, 3⟩ kr) ∧
      insert_all [5, 1, 3] = [⟨3, 3⟩, ⟨1, 1⟩, ⟨5, 5⟩] :=
  ⟨by decide, ((insert_all_invariant [5, 1] 3).2.2.1 (by decide)).1,
   ((insert_all_invariant [5, 1] 3).2.2.1 (by decide)).2, by decide⟩

theorem key_range_scan_separated (v : Int) (s : List key_range) (hw : range_wf s)
    (hsep : separated s) (hv : ∃ kr ∈ s, kr.start ≤ v ∧ v ≤ kr.end_) :
    key_range_scan v s = some s := by
  induction s with
  | nil => obtain ⟨q, hq, _⟩ := hv; exact absurd hq (List.not_mem_nil _)
  | cons kr next ih =>
    unfold separated at hsep
    rw [List.pairwise_cons] at hsep
    obtain ⟨hgap, hsep2⟩ := hsep
    unfold key_range_scan
    by_cases h1 : v ≥ kr.start ∧ v ≤ kr.end_
    · rw [if_pos h1]
    · rw [if_neg h1]
      obtain ⟨q, hq, hqv⟩ := hv
      rcases List.mem_cons.mp hq with rfl | hq
      · exact absurd hqv h1
      · have hg := hgap q hq
        have hwk := hw kr (List.mem_cons_self _ _)
        have hwq := hw q (List.mem_cons_of_mem _ hq)
        unfold gap2 at hg
        rw [if_neg (by omega), if_neg (by omega),
          ih (fun r hr => hw r (List.mem_cons_of_mem _ hr)) hsep2 ⟨q, hq, hqv⟩]
        rfl

/-- C18 (counterexample): in the list `[2,3]`, `[1,1]`, reached by the insertions 1, 3,
2, the value 1 is covered by `[1,1]`; inserting it extends `[2,3]`, the first
interval scanned, to `[1,3]`. -/
theorem add_to_key_range_covered_changes :
    insert_all [1, 3, 2] = [⟨2, 3⟩, ⟨1, 1⟩] ∧
      key_range_covers 1 (insert_all [1, 3, 2]) = 1 ∧
      add_to_key_range (insert_all [1, 3, 2]) 1 = [⟨1, 3⟩, ⟨1, 1⟩] ∧
      add_to_key_range (insert_all [1, 3, 2]) 1 ≠ insert_all [1, 3, 2] := by
  decide

/-- C18 (amended): inserting a value `v` that some interval covers leaves the number of
intervals and the members of the list as they were; it leaves the list itself as
it was when the intervals have `start <= end` and are separated from each other by
a gap of at least 2 (then no interval scanned before the covering one is adjacent
to `v`). -/
theorem add_to_key_range_covered (s : List key_range) (v : Int)
    (hv : key_range_covers v s = 1) :
    (add_to_key_range s v).length = s.length ∧
      (∀ x : Int, key_range_covers x (add_to_key_range s v) = key_range_covers x s) ∧
      (range_wf s → separated s → add_to_key_range s v = s) := by
  have hv2 := (key_range_covers_eq_one v s).mp hv
  cases hk : key_range_scan v s with
  | none =>
    obtain ⟨q, hq, hqv⟩ := hv2
    exact absurd hqv ((key_range_scan_none v s).mp hk q hq).1
  | some l =>
    have hadd : add_to_key_range s v = l := by
      unfold add_to_key_range; rw [hk]
    rw [hadd]
    refine ⟨(key_range_scan_some v s l hk).1, ?_, ?_⟩
    · intro x
      have hiff : key_range_covers x l = 1 ↔ key_range_covers x s = 1 := by
        rw [key_range_covers_eq_one, key_range_covers_eq_one]
        constructor
        · intro hx
          rcases (key_range_scan_some v s l hk).2 x hx with h | h
          · exact h
          · subst h; exact hv2
        · exact (key_range_scan_mono v s l hk).1 x
      rcases key_range_covers_zero_or_one x l with h0 | h1
      · rcases key_range_covers_zero_or_one x s with g0 | g1
        · rw [h0, g0]
        · rw [hiff.mpr g1] at h0; exact absurd h0 (by decide)
      · rw [h1, hiff.mp h1]
    · intro hw hsep
      have := key_range_scan_separated v s hw hsep hv2
      rw [hk] at this
      exact Option.some.inj this

/-- C18 (witness): in the list `[3,4]`, `[0,1]` the value 4 is covered and inserting it
changes nothing. -/
theorem add_to_key_range_covered_witness :
    key_range_covers 4 [⟨3, 4⟩, ⟨0, 1⟩] = 1 ∧ range_wf [⟨3, 4⟩, ⟨0, 1⟩] ∧
      separated [⟨3, 4⟩, ⟨0, 1⟩] ∧
      add_to_key_range [⟨3, 4⟩, ⟨0, 1⟩] 4 = [⟨3, 4⟩, ⟨0, 1⟩] :=
  ⟨by decide, by unfold range_wf; decide, by unfold separated; decide,
   (add_to_key_range_covered [⟨3, 4⟩, ⟨0, 1⟩] 4 (by decide)).2.2
     (by unfold range_wf; decide) (by unfold separated; decide)⟩

theorem add_to_key_range_nil (v : Int) : add_to_key_range [] v = [⟨v, v⟩] := rfl

theorem add_to_key_range_hit_start (a b v : Int) (next : List key_range) (h : v = a - 1)
    (h1 : ¬ (a ≤ v ∧ v ≤ b)) : add_to_key_range (⟨a, b⟩ :: next) v = ⟨v, b⟩ :: next := by
  unfold add_to_key_range key_range_scan
  simp only [ge_iff_le]
  rw [if_neg h1, if_pos h, h]

theorem add_to_key_range_hit_end (a b v : Int) (next : List key_range) (h : v = b + 1)
    (h1 : ¬ (a ≤ v ∧ v ≤ b)) (h2 : v ≠ a - 1) :
    add_to_key_range (⟨a, b⟩ :: next) v = ⟨a, v⟩ :: next := by
  unfold add_to_key_range key_range_scan
  simp only [ge_iff_le]
  rw [if_neg h1, if_neg h2, if_pos h, h]

theorem add_to_key_range_miss (a b v : Int) (h1 : ¬ (a ≤ v ∧ v ≤ b)) (h2 : v ≠ a - 1)
    (h3 : v ≠ b + 1) : add_to_key_range [⟨a, b⟩] v = [⟨v, v⟩, ⟨a, b⟩] := by
  unfold add_to_key_range key_range_scan
  simp only [ge_iff_le]
  rw [if_neg h1, if_neg h2, if_neg h3]
  rfl

theorem insert_all_three_eq (x y z : Int) :
    insert_all [x, y, z] =
      add_to_key_range (add_to_key_range (add_to_key_range [] x) y) z := rfl

/-- C19 (counterexample): the insertions 1, 3, 2 (the values `v - 1`, `v + 1`, `v` for
`v = 2`) give the two intervals `[2,3]` and `[1,1]`, not the single interval
`[1,3]`. -/
theorem insert_all_three_not_merged :
    insert_all [2 - 1, 2 + 1, 2] = [⟨2, 3⟩, ⟨1, 1⟩] ∧
      insert_all [2 - 1, 2 + 1, 2] ≠ [⟨2 - 1, 2 + 1⟩] ∧
      (insert_all [2 - 1, 2 + 1, 2]).length = 2 := by
  decide

/-- C19 (amended): from the empty list, the four orders of `v - 1`, `v`, `v + 1` in
which `v` is not inserted last give the single interval `[v - 1, v + 1]`; the two
orders in which `v` is inserted last give two intervals, the one scanned first
extended by `v`.  In all six orders the members are `v - 1`, `v` and `v + 1` and
nothing else. -/
theorem insert_all_three (v : Int) :
    insert_all [v - 1, v, v + 1] = [⟨v - 1, v + 1⟩] ∧
      insert_all [v, v - 1, v + 1] = [⟨v - 1, v + 1⟩] ∧
      insert_all [v, v + 1, v - 1] = [⟨v - 1, v + 1⟩] ∧
      insert_all [v + 1, v, v - 1] = [⟨v - 1, v + 1⟩] ∧
      insert_all [v - 1, v + 1, v] = [⟨v, v + 1⟩, ⟨v - 1, v - 1⟩] ∧
      insert_all [v + 1, v - 1, v] = [⟨v - 1, v⟩, ⟨v + 1, v + 1⟩] ∧
      (∀ (vs : List Int) (x : Int), vs.Perm [v - 1, v, v + 1] →
        (key_range_covers x (insert_all vs) = 1 ↔ x = v - 1 ∨ x = v ∨ x = v + 1)) := by
  refine ⟨?_, ?_, ?_, ?_, ?_, ?_, ?_⟩
  · rw [insert_all_three_eq, add_to_key_range_nil,
      add_to_key_range_hit_end _ _ v [] (by omega) (by omega) (by omega),
      add_to_key_range_hit_end _ _ (v + 1) [] (by omega) (by omega) (by omega)]
  · rw [insert_all_three_eq, add_to_key_range_nil,
      add_to_key_range_hit_start _ _ (v - 1) [] (by omega) (by omega),
      add_to_key_range_hit_end _ _ (v + 1) [] (by omega) (by omega) (by omega)]
  · rw [insert_all_three_eq, add_to_key_range_nil,
      add_to_key_range_hit_end _ _ (v + 1) [] (by omega) (by omega) (by omega),
      add_to_key_range_hit_start _ _ (v - 1) [] (by omega) (by omega)]
  · rw [insert_all_three_eq, add_to_key_range_nil,
      add_to_key_range_hit_start _ _ v [] (by omega) (by omega),
      add_to_key_range_hit_start _ _ (v - 1) [] (by omega) (by omega)]
  · rw [insert_all_three_eq, add_to_key_range_nil,
      add_to_key_range_miss _ _ (v + 1) (by omega) (by omega) (by omega),
      add_to_key_range_hit_start _ _ v _ (by omega) (by omega)]
  · rw [insert_all_three_eq, add_to_key_range_nil,
      add_to_key_range_miss _ _ (v - 1) (by omega) (by omega) (by omega),
      add_to_key_range_hit_end _ _ v _ (by omega) (by omega) (by omega)]
  · intro vs x hp
    unfold insert_all
    rw [foldl_add_covers vs [] x (fun _ h => absurd h (List.not_mem_nil _)), hp.mem_iff]
    simp [key_range_covers]

/-! ## Theorems on the ranges of a parsed layout -/

theorem store_keysym_ranges (E : Env) (keysym keycode : Int) (numlock : Bool)
    (k k1 : kbd_layout_t) (h : store_keysym E keysym keycode numlock k = some k1) :
    k1.keypad_range =
        (if numlock = true then add_to_key_range k.keypad_range keycode
          else k.keypad_range) ∧
      k1.numlock_range =
        (if numlock = true then add_to_key_range k.numlock_range keysym
          else k.numlock_range) := by
  unfold store_keysym at h
  cases numlock <;> simp only [Bool.false_eq_true, if_true, if_false] at h ⊢ <;>
    split_ifs at h <;> simp only [Option.some.injEq] at h <;> subst h <;> exact ⟨rfl, rfl⟩

theorem apply_assignments_ranges (E : Env) (l : List (Int × Int × Bool)) :
    ∀ (k k1 : kbd_layout_t), apply_assignments E l k = some k1 →
      (range_wf k.keypad_range → range_wf k1.keypad_range ∧
        ∀ c : Int, key_range_covers c k1.keypad_range = 1 ↔
          key_range_covers c k.keypad_range = 1 ∨ ∃ a ∈ l, a.2.2 = true ∧ a.2.1 = c) ∧
      (range_wf k.numlock_range → range_wf k1.numlock_range ∧
        ∀ c : Int, key_range_covers c k1.numlock_range = 1 ↔
          key_range_covers c k.numlock_range = 1 ∨ ∃ a ∈ l, a.2.2 = true ∧ a.1 = c) := by
  induction l with
  | nil =>
    intro k k1 h
    simp only [apply_assignments, Option.some.injEq] at h
    subst h
    simp
  | cons a more ih =>
    intro k k1 h
    unfold apply_assignments at h
    cases hst : store_keysym E a.1 a.2.1 a.2.2 k with
    | none => rw [hst] at h; simp at h
    | some k2 =>
      rw [hst] at h
      simp only [] at h
      obtain ⟨hkp, hnl⟩ := store_keysym_ranges E _ _ _ k k2 hst
      obtain ⟨ih1, ih2⟩ := ih k2 k1 h
      by_cases hn : a.2.2 = true
      · rw [if_pos hn] at hkp hnl
        constructor
        · intro hw
          have hw2 : range_wf k2.keypad_range := by
            rw [hkp]; exact add_to_key_range_wf _ _ hw
          obtain ⟨hw1, hc⟩ := ih1 hw2
          refine ⟨hw1, fun c => ?_⟩
          rw [hc c, hkp, add_to_key_range_covers _ _ _ hw]
          simp only [List.mem_cons, exists_eq_or_imp, hn, true_and]
          constructor
          · rintro ((h1 | h1) | h1)
            · exact Or.inl h1
            · exact Or.inr (Or.inl h1.symm)
            · exact Or.inr (Or.inr h1)
          · rintro (h1 | h1 | h1)
            · exact Or.inl (Or.inl h1)
            · exact Or.inl (Or.inr h1.symm)
            · exact Or.inr h1
        · intro hw
          have hw2 : range_wf k2.numlock_range := by
            rw [hnl]; exact add_to_key_range_wf _ _ hw
          obtain ⟨hw1, hc⟩ := ih2 hw2
          refine ⟨hw1, fun c => ?_⟩
          rw [hc c, hnl, add_to_key_range_covers _ _ _ hw]
          simp only [List.mem_cons, exists_eq_or_imp, hn, true_and]
          constructor
          · rintro ((h1 | h1) | h1)
            · exact Or.inl h1
            · exact Or.inr (Or.inl h1.symm)
            · exact Or.inr (Or.inr h1)
          · rintro (h1 | h1 | h1)
            · exact Or.inl (Or.inl h1)
            · exact Or.inl (Or.inr h1.symm)
            · exact Or.inr h1
      · rw [if_neg hn] at hkp hnl
        constructor
        · intro hw
          obtain ⟨hw1, hc⟩ := ih1 (by rw [hkp]; exact hw)
          refine ⟨hw1, fun c => ?_⟩
          rw [hc c, hkp]
          simp [hn]
        · intro hw
          obtain ⟨hw1, hc⟩ := ih2 (by rw [hnl]; exact hw)
          refine ⟨hw1, fun c => ?_⟩
          rw [hc c, hnl]
          simp [hn]

theorem range_wf_nil : range_wf [] := fun _ h => absurd h (List.not_mem_nil _)

/-- C12: after a call of `init_keyboard_layout` that returns a layout, every processed
assignment whose line holds `numlock` has its keycode in the keypad range and its
keysym in the numlock range of the layout, whatever was processed after it. -/
theorem init_keyboard_layout_numlock (E : Env) (table : List (List Char × Int))
    (fuel : Nat) (language : List Char) (k : kbd_layout_t)
    (hok : init_keyboard_layout E table fuel language = .ok (some k)) :
    ∃ l, assignments E table fuel language = some l ∧
      ∀ a ∈ l, a.2.2 = true →
        keycode_is_keypad k a.2.1 = 1 ∧ keysym_is_numlock k a.1 = 1 := by
  obtain ⟨l, hl, hA⟩ := parse_keyboard_layout_sound E table fuel language none (some k) hok
  simp only [Option.getD_none, Option.getD_some] at hA
  obtain ⟨h1, h2⟩ := apply_assignments_ranges E l zero_layout k hA
  refine ⟨l, hl, fun a ha hn => ⟨?_, ?_⟩⟩
  · unfold keycode_is_keypad
    exact ((h1 range_wf_nil).2 a.2.1).mpr (Or.inr ⟨a, ha, hn, rfl⟩)
  · unfold keysym_is_numlock
    exact ((h2 range_wf_nil).2 a.1).mpr (Or.inr ⟨a, ha, hn, rfl⟩)

/-- C12 (witness): the line `kp_7 71 numlock`, followed by two more lines, makes 71 a
keypad keycode and the keysym of `kp_7` a numlock keysym. -/
theorem init_keyboard_layout_numlock_witness :
    init_keyboard_layout (sample_env 512 256 numlock_files) numlock_table 1 "kp".toList =
        .ok (some numlock_layout) ∧
      keycode_is_keypad numlock_layout 71 = 1 ∧
      keysym_is_numlock numlock_layout (get_keysym numlock_table "kp_7".toList) = 1 ∧
      ∃ l, assignments (sample_env 512 256 numlock_files) numlock_table 1 "kp".toList =
          some l ∧
        ∀ a ∈ l, a.2.2 = true →
          keycode_is_keypad numlock_layout a.2.1 = 1 ∧
            keysym_is_numlock numlock_layout a.1 = 1 :=
  ⟨rfl, by decide, by decide,
   init_keyboard_layout_numlock (sample_env 512 256 numlock_files) numlock_table 1
     "kp".toList numlock_layout rfl⟩

/-- C20: over the integers, for a range list whose intervals have `start <= end`, the
members after an insertion of `v` are the members before and `v`, and the
intervals still have `start <= end`.  Hence, after a call of
`init_keyboard_layout` that returns a layout, `keycode_is_keypad` is 1 exactly for
the keycodes of the processed assignments whose line holds `numlock`, and
`keysym_is_numlock` is 1 exactly for their keysyms. -/
theorem key_range_exact (E : Env) (table : List (List Char × Int)) (fuel : Nat)
    (language : List Char) :
    (∀ (s : List key_range) (v x : Int), range_wf s →
        (key_range_covers x (add_to_key_range s v) = 1 ↔
          key_range_covers x s = 1 ∨ x = v) ∧
        range_wf (add_to_key_range s v)) ∧
      (∀ k : kbd_layout_t, init_keyboard_layout E table fuel language = .ok (some k) →
        ∃ l, assignments E table fuel language = some l ∧
          ∀ c : Int,
            (keycode_is_keypad k c = 1 ↔ ∃ a ∈ l, a.2.2 = true ∧ a.2.1 = c) ∧
            (keysym_is_numlock k c = 1 ↔ ∃ a ∈ l, a.2.2 = true ∧ a.1 = c)) := by
  refine ⟨fun s v x hw => ⟨add_to_key_range_covers s v x hw, add_to_key_range_wf s v hw⟩, ?_⟩
  intro k hok
  obtain ⟨l, hl, hA⟩ := parse_keyboard_layout_sound E table fuel language none (some k) hok
  simp only [Option.getD_none, Option.getD_some] at hA
  obtain ⟨h1, h2⟩ := apply_assignments_ranges E l zero_layout k hA
  refine ⟨l, hl, fun c => ⟨?_, ?_⟩⟩
  · unfold keycode_is_keypad
    rw [(h1 range_wf_nil).2 c]
    simp [zero_layout, key_range_covers]
  · unfold keysym_is_numlock
    rw [(h2 range_wf_nil).2 c]
    simp [zero_layout, key_range_covers]

/-- C20 (witness): inserting 4 into the list `[5,6]`, `[1,2]` of intervals with
`start <= end` adds the member 4 and no other (3 stays outside); the layout of
`numlock_files` has the keypad keycodes 71 and 72 and not 73. -/
theorem key_range_exact_witness :
    range_wf [⟨5, 6⟩, ⟨1, 2⟩] ∧
      (key_range_covers 4 (add_to_key_range [⟨5, 6⟩, ⟨1, 2⟩] 4) = 1 ↔
        key_range_covers 4 [⟨5, 6⟩, ⟨1, 2⟩] = 1 ∨ (4 : Int) = 4) ∧
      key_range_covers 3 (add_to_key_range [⟨5, 6⟩, ⟨1, 2⟩] 4) = 0 ∧
      init_keyboard_layout (sample_env 512 256 numlock_files) numlock_table 1 "kp".toList =
        .ok (some numlock_layout) ∧
      keycode_is_keypad numlock_layout 73 = 0 ∧
      (∃ l, assignments (sample_env 512 256 numlock_files) numlock_table 1 "kp".toList =
          some l ∧
        ∀ c : Int,
          (keycode_is_keypad numlock_layout c = 1 ↔ ∃ a ∈ l, a.2.2 = true ∧ a.2.1 = c) ∧
          (keysym_is_numlock numlock_layout c = 1 ↔ ∃ a ∈ l, a.2.2 = true ∧ a.1 = c)) :=
  ⟨by unfold range_wf; decide,
   ((key_range_exact (sample_env 512 256 numlock_files) numlock_table 1 "kp".toList).1
      [⟨5, 6⟩, ⟨1, 2⟩] 4 4 (by unfold range_wf; decide)).1,
   by decide, rfl, by decide,
   (key_range_exact (sample_env 512 256 numlock_files) numlock_table 1 "kp".toList).2
     numlock_layout rfl⟩

/-! ## Theorems on skipped lines and includes -/

theorem include_line_shape (line : List Char)
    (h : "include ".toList.isPrefixOf line = true) :
    ¬ line.head? = some '#' ∧ ¬ "map ".toList.isPrefixOf line = true ∧
      line.contains ' ' = true := by
  rw [List.isPrefixOf_iff_prefix] at h
  obtain ⟨t, ht⟩ := h
  subst ht
  have hl : "include ".toList ++ t =
      'i' :: 'n' :: 'c' :: 'l' :: 'u' :: 'd' :: 'e' :: ' ' :: t := rfl
  rw [hl]
  refine ⟨?_, ?_, ?_⟩
  · intro hh
    exact absurd (Option.some.inj hh) (by decide)
  · intro hh
    exact absurd hh (by simp [List.isPrefixOf])
  · simp

theorem split_keysym_none (line : List Char) (h : line.contains ' ' = false) :
    split_keysym line = none := by
  unfold split_keysym
  have : line.dropWhile (fun c => decide (c ≠ ' ')) = [] := by
    rw [List.dropWhile_eq_nil_iff]
    intro x hx
    have hne : x ≠ ' ' := by
      intro hxe
      subst hxe
      have : line.contains ' ' = true := by simpa using hx
      rw [h] at this
      exact absurd this (by decide)
    simpa using hne
  rw [this]

theorem split_keysym_fst (line name rest : List Char)
    (h : split_keysym line = some (name, rest)) :
    name = line.takeWhile (fun c => c ≠ ' ') := by
  unfold split_keysym at h
  split at h
  · simp at h
  · simp only [Option.some.injEq, Prod.mk.injEq] at h
    exact h.1.symm

theorem parse_lines_skipped (E : Env) (table : List (List Char × Int))
    (recurse : List Char → kbd_layout_t → Except Fault kbd_layout_t)
    (line : List Char) (more : List (List Char)) (k : kbd_layout_t)
    (h : is_skipped table line = true) :
    parse_lines E table recurse (line :: more) k = parse_lines E table recurse more k := by
  rw [parse_lines]
  by_cases h1 : line.head? = some '#'
  · rw [if_pos h1]
  · rw [if_neg h1]
    by_cases h2 : "map ".toList.isPrefixOf line = true
    · rw [if_pos h2]
    · rw [if_neg h2]
      by_cases h3 : "include ".toList.isPrefixOf line = true
      · exfalso
        have hc := (include_line_shape line h3).2.2
        unfold is_skipped at h
        simp only [Bool.or_eq_true, Bool.and_eq_true, Bool.not_eq_true',
          decide_eq_true_eq] at h
        rcases h with ((h | h) | h) | ⟨h, _⟩
        · exact h1 h
        · exact h2 h
        · rw [hc] at h; exact absurd h (by decide)
        · rw [h3] at h; exact absurd h (by decide)
      · rw [if_neg h3]
        have ha : assign_line E table line k = some k := by
          unfold assign_line
          cases hs : split_keysym line with
          | none => rfl
          | some p =>
            obtain ⟨name, rest⟩ := p
            simp only []
            have hname := split_keysym_fst line name rest hs
            have hsp : line.contains ' ' = true := by
              by_contra hc
              have := split_keysym_none line (by simpa using hc)
              rw [this] at hs
              exact absurd hs (by simp)
            unfold is_skipped at h
            simp only [Bool.or_eq_true, Bool.and_eq_true, Bool.not_eq_true',
              decide_eq_true_eq] at h
            rcases h with ((h | h) | h) | ⟨_, h⟩
            · exact absurd h h1
            · exact absurd h h2
            · rw [hsp] at h; exact absurd h (by decide)
            · rw [hname, if_pos h]
        rw [ha]

theorem parse_lines_filter (E : Env) (table : List (List Char × Int))
    (recurse : List Char → kbd_layout_t → Except Fault kbd_layout_t)
    (lines : List (List Char)) :
    ∀ k, parse_lines E table recurse (lines.filter (fun l => !is_skipped table l)) k =
      parse_lines E table recurse lines k := by
  induction lines with
  | nil => intro k; rfl
  | cons line more ih =>
    intro k
    by_cases h : is_skipped table line = true
    · rw [List.filter_cons_of_neg (by simp [h]), parse_lines_skipped E table recurse line more k h]
      exact ih k
    · rw [List.filter_cons_of_pos (by simpa using h)]
      rw [parse_lines, parse_lines]
      split_ifs
      · exact ih k
      · exact ih k
      · cases recurse (line.drop 8) k with
        | error e => rfl
        | ok k1 => exact ih k1
      · cases assign_line E table line k with
        | none => rfl
        | some k1 => exact ih k1

theorem parse_lines_congr (E : Env) (table : List (List Char × Int))
    (r1 r2 : List Char → kbd_layout_t → Except Fault kbd_layout_t)
    (lines : List (List Char)) :
    (∀ line ∈ lines, "include ".toList.isPrefixOf line = true →
        ∀ k, r1 (line.drop 8) k = r2 (line.drop 8) k) →
      ∀ k, parse_lines E table r1 lines k = parse_lines E table r2 lines k := by
  induction lines with
  | nil => intro _ k; rfl
  | cons line more ih =>
    intro h k
    have ih1 := ih (fun l hl => h l (List.mem_cons_of_mem _ hl))
    rw [parse_lines, parse_lines]
    split_ifs with h1 h2 h3
    · exact ih1 k
    · exact ih1 k
    · rw [h line (List.mem_cons_self _ _) h3 k]
      cases r2 (line.drop 8) k with
      | error e => rfl
      | ok k1 => exact ih1 k1
    · cases assign_line E table line k with
      | none => rfl
      | some k1 => exact ih1 k1

theorem parse_lines_append (E : Env) (table : List (List Char × Int))
    (recurse : List Char → kbd_layout_t → Except Fault kbd_layout_t)
    (l1 l2 : List (List Char)) :
    ∀ k, parse_lines E table recurse (l1 ++ l2) k =
      match parse_lines E table recurse l1 k with
      | .error e => .error e
      | .ok k1 => parse_lines E table recurse l2 k1 := by
  induction l1 with
  | nil => intro k; rfl
  | cons line more ih =>
    intro k
    rw [List.cons_append, parse_lines, parse_lines]
    split_ifs
    · exact ih k
    · exact ih k
    · cases recurse (line.drop 8) k with
      | error e => rfl
      | ok k1 => exact ih k1
    · cases assign_line E table line k with
      | none => rfl
      | some k1 => exact ih k1

theorem parse_lines_include (E : Env) (table : List (List Char × Int))
    (recurse : List Char → kbd_layout_t → Except Fault kbd_layout_t)
    (line : List Char) (more : List (List Char)) (k : kbd_layout_t)
    (h : "include ".toList.isPrefixOf line = true) :
    parse_lines E table recurse (line :: more) k =
      match recurse (line.drop 8) k with
      | .error e => .error e
      | .ok k1 => parse_lines E table recurse more k1 := by
  obtain ⟨h1, h2, _⟩ := include_line_shape line h
  rw [parse_lines, if_neg h1, if_neg h2, if_pos h]

theorem parse_keyboard_layout_open (E : Env) (table : List (List Char × Int)) (fuel : Nat)
    (language filename f : List Char) (k0 : Option kbd_layout_t)
    (hf : E.qemu_find_file language = some filename) (ho : E.fopen filename = some f) :
    parse_keyboard_layout E table (fuel + 1) language k0 =
      (parse_lines E table
        (fun name k1 => (parse_keyboard_layout E table fuel name (some k1)).map
          (fun r => r.getD k1))
        (read_lines f) (k0.getD zero_layout)).map some := by
  rw [parse_keyboard_layout, hf]
  simp only [ho]

theorem parse_keyboard_layout_fuel (E : Env) (table : List (List Char × Int))
    (rank : List Char → Nat) (hrank : include_ranked E rank) :
    ∀ (n m : Nat) (language : List Char) (k0 : Option kbd_layout_t),
      rank language < n → rank language < m →
      parse_keyboard_layout E table n language k0 =
        parse_keyboard_layout E table m language k0 := by
  intro n
  induction n with
  | zero => intro m language k0 h; omega
  | succ n ih =>
    intro m language k0 hn hm
    cases m with
    | zero => omega
    | succ m =>
      cases hf : E.qemu_find_file language with
      | none => rw [parse_keyboard_layout, parse_keyboard_layout, hf]
      | some filename =>
        cases ho : E.fopen filename with
        | none =>
          rw [parse_keyboard_layout, parse_keyboard_layout, hf]
          simp only [ho]
        | some f =>
          rw [parse_keyboard_layout_open E table n language filename f k0 hf ho,
            parse_keyboard_layout_open E table m language filename f k0 hf ho]
          congr 1
          apply parse_lines_congr
          intro line hl hp k
          have hr := hrank language filename f line hf ho hl hp
          rw [ih m (line.drop 8) (some k) (by omega) (by omega)]

/-- C11: include is inlining.  In a file system whose include structure is well founded
(every `include` line names a keymap of smaller rank), let the keymap `A` hold an
`include` line whose keymap is found and opened, and let the lines of the keymap
`A1` be those of `A` with that line replaced by the lines of the included file.
Then, with fuel above the rank of `A`, parsing `A` and parsing `A1` give the same
result, and both return the same layout when no keysym of the table is below 0. -/
theorem include_is_inlining (E : Env) (table : List (List Char × Int))
    (rank : List Char → Nat) (hrank : include_ranked E rank)
    (A A1 fa fa1 ta ta1 fb tb line : List Char) (before after : List (List Char))
    (hA : E.qemu_find_file A = some fa) (hoA : E.fopen fa = some ta)
    (hlA : read_lines ta = before ++ line :: after)
    (hinc : "include ".toList.isPrefixOf line = true)
    (hB : E.qemu_find_file (line.drop 8) = some fb) (hoB : E.fopen fb = some tb)
    (hA1 : E.qemu_find_file A1 = some fa1) (hoA1 : E.fopen fa1 = some ta1)
    (hlA1 : read_lines ta1 = before ++ read_lines tb ++ after)
    (fuel : Nat) (hfuel : rank A < fuel) :
    (∀ k0, parse_keyboard_layout E table fuel A k0 =
        parse_keyboard_layout E table fuel A1 k0) ∧
      init_keyboard_layout E table fuel A = init_keyboard_layout E table fuel A1 ∧
      ((∀ p ∈ table, 0 ≤ p.2) →
        ∃ k, init_keyboard_layout E table fuel A = .ok (some k) ∧
          init_keyboard_layout E table fuel A1 = .ok (some k)) := by
  have hrB : rank (line.drop 8) < rank A :=
    hrank A fa ta line hA hoA (by rw [hlA]; simp) hinc
  have main : ∀ k0, parse_keyboard_layout E table fuel A k0 =
      parse_keyboard_layout E table fuel A1 k0 := by
    intro k0
    cases fuel with
    | zero => omega
    | succ n =>
      cases n with
      | zero => omega
      | succ m =>
        rw [parse_keyboard_layout_open E table (m + 1) A fa ta k0 hA hoA,
          parse_keyboard_layout_open E table (m + 1) A1 fa1 ta1 k0 hA1 hoA1, hlA, hlA1]
        congr 1
        rw [List.append_assoc, parse_lines_append, parse_lines_append]
        cases parse_lines E table
            (fun name k1 => (parse_keyboard_layout E table (m + 1) name (some k1)).map
              (fun r => r.getD k1)) before (k0.getD zero_layout) with
        | error e => rfl
        | ok k1 =>
          simp only []
          rw [parse_lines_include _ _ _ line after k1 hinc, parse_lines_append]
          have hstep : (parse_keyboard_layout E table (m + 1) (line.drop 8) (some k1)).map
              (fun r => r.getD k1) =
              parse_lines E table
                (fun name k2 => (parse_keyboard_layout E table (m + 1) name (some k2)).map
                  (fun r => r.getD k2)) (read_lines tb) k1 := by
            rw [parse_keyboard_layout_open E table m (line.drop 8) fb tb (some k1) hB hoB]
            have hc := parse_lines_congr E table
              (fun name k2 => (parse_keyboard_layout E table m name (some k2)).map
                (fun r => r.getD k2))
              (fun name k2 => (parse_keyboard_layout E table (m + 1) name (some k2)).map
                (fun r => r.getD k2)) (read_lines tb)
              (by
                intro l hl hp k
                have hr := hrank (line.drop 8) fb tb l hB hoB hl hp
                simp only []
                rw [parse_keyboard_layout_fuel E table rank hrank m (m + 1) (l.drop 8)
                  (some k) (by omega) (by omega)]) k1
            rw [← hc]
            simp only [Option.getD_some]
            cases parse_lines E table
              (fun name k2 => (parse_keyboard_layout E table m name (some k2)).map
                (fun r => r.getD k2)) (read_lines tb) k1 with
            | error e => rfl
            | ok k2 => rfl
          simp only [] at hstep ⊢
          rw [hstep]
  refine ⟨main, main none, ?_⟩
  intro hnn
  obtain ⟨r, hr, hiff⟩ := parse_keyboard_layout_total E table hnn rank hrank fuel A none hfuel
  cases r with
  | none =>
    have := hiff.mp rfl
    rw [hA] at this
    simp [hoA] at this
  | some k =>
    refine ⟨k, hr, ?_⟩
    unfold init_keyboard_layout
    rw [← main none]
    exact hr

/-- C11 (witness): the include example of the specification.  The keymap `top`, with
the lines `include other` and `foo 5`, and the keymap `inlined`, with the lines
`bar 6` and `foo 5`, give the same layout, which holds `foo` (`direct[1] = 5`) and
`bar` (`direct[2] = 6`). -/
theorem include_is_inlining_witness :
    init_keyboard_layout (sample_env 512 256 include_files) include_table 2 "top".toList =
        init_keyboard_layout (sample_env 512 256 include_files) include_table 2
          "inlined".toList ∧
      init_keyboard_layout (sample_env 512 256 include_files) include_table 2 "top".toList =
        .ok (some include_layout) ∧
      include_layout.keysym2keycode 1 = 5 ∧ include_layout.keysym2keycode 2 = 6 :=
  ⟨(include_is_inlining (sample_env 512 256 include_files) include_table include_rank
      (sample_env_ranked 512 256 include_files include_rank (by decide))
      "top".toList "inlined".toList "top".toList "inlined".toList
      "include other\nfoo 5\n".toList "bar 6\nfoo 5\n".toList "other".toList
      "bar 6\n".toList "include other".toList [] ["foo 5".toList]
      (by decide) (by decide) (by decide) (by decide) (by decide) (by decide) (by decide)
      (by decide) (by decide) 2 (by decide)).2.1,
   rfl, rfl, rfl⟩

/-- C13 (counterexample): the first line of the keymap `top` includes the keymap
`missing`, which is not found; the call for `top` returns a layout all the same,
with the assignment of the line after the include. -/
theorem include_failure_not_fatal :
    ((sample_env 512 256 failing_include_files).qemu_find_file "missing".toList).bind
        (sample_env 512 256 failing_include_files).fopen = none ∧
      (((sample_env 512 256 failing_include_files).qemu_find_file "top".toList).bind
        (sample_env 512 256 failing_include_files).fopen).map read_lines =
          some ["include missing".toList, "foo 5".toList] ∧
      init_keyboard_layout (sample_env 512 256 failing_include_files) include_table 2
        "top".toList = .ok (some foo_layout) ∧
      foo_layout.keysym2keycode 1 = 5 := by
  refine ⟨by decide, by decide, rfl, rfl⟩

/-- C13 (amended): an `include` line whose keymap is not found or not opened changes
nothing.  The nested call returns `NULL` without touching the layout, the parse
goes on with the next line, and the result is that of the keymap without the
line; it is not `NULL`. -/
theorem include_failure_skipped (E : Env) (table : List (List Char × Int)) (fuel : Nat)
    (A A1 fa fa1 ta ta1 line : List Char) (before after : List (List Char))
    (hA : E.qemu_find_file A = some fa) (hoA : E.fopen fa = some ta)
    (hlA : read_lines ta = before ++ line :: after)
    (hinc : "include ".toList.isPrefixOf line = true)
    (hfail : (E.qemu_find_file (line.drop 8)).bind E.fopen = none)
    (hA1 : E.qemu_find_file A1 = some fa1) (hoA1 : E.fopen fa1 = some ta1)
    (hlA1 : read_lines ta1 = before ++ after) :
    (∀ k, parse_keyboard_layout E table (fuel + 1) (line.drop 8) (some k) = .ok none) ∧
      (∀ k0, parse_keyboard_layout E table (fuel + 2) A k0 =
        parse_keyboard_layout E table (fuel + 2) A1 k0) ∧
      (∀ k0, parse_keyboard_layout E table (fuel + 2) A k0 ≠ .ok none) ∧
      init_keyboard_layout E table (fuel + 2) A =
        init_keyboard_layout E table (fuel + 2) A1 := by
  have hnull : ∀ k, parse_keyboard_layout E table (fuel + 1) (line.drop 8) (some k) =
      .ok none := by
    intro k
    rw [parse_keyboard_layout]
    cases hf : E.qemu_find_file (line.drop 8) with
    | none => rfl
    | some fx =>
      rw [hf] at hfail
      simp only [Option.some_bind] at hfail
      simp only [hfail]
  have main : ∀ k0, parse_keyboard_layout E table (fuel + 2) A k0 =
      parse_keyboard_layout E table (fuel + 2) A1 k0 := by
    intro k0
    rw [parse_keyboard_layout_open E table (fuel + 1) A fa ta k0 hA hoA,
      parse_keyboard_layout_open E table (fuel + 1) A1 fa1 ta1 k0 hA1 hoA1, hlA, hlA1]
    congr 1
    rw [parse_lines_append, parse_lines_append]
    cases parse_lines E table
        (fun name k1 => (parse_keyboard_layout E table (fuel + 1) name (some k1)).map
          (fun r => r.getD k1)) before (k0.getD zero_layout) with
    | error e => rfl
    | ok k1 =>
      simp only []
      rw [parse_lines_include _ _ _ line after k1 hinc]
      simp only [hnull k1, Except.map, Option.getD_none]
  refine ⟨hnull, main, ?_, main none⟩
  intro k0
  rw [parse_keyboard_layout_open E table (fuel + 1) A fa ta k0 hA hoA]
  generalize parse_lines E table
    (fun name k1 => (parse_keyboard_layout E table (fuel + 1) name (some k1)).map
      (fun r => r.getD k1)) (read_lines ta) (k0.getD zero_layout) = res
  cases res <;> simp [Except.map]

/-- C13 (witness): in `failing_include_files` the keymap `top`, whose first line
includes a keymap that is not found, gives what the keymap `plain` without that
line gives. -/
theorem include_failure_skipped_witness :
    init_keyboard_layout (sample_env 512 256 failing_include_files) include_table 2
        "top".toList =
      init_keyboard_layout (sample_env 512 256 failing_include_files) include_table 2
        "plain".toList ∧
      init_keyboard_layout (sample_env 512 256 failing_include_files) include_table 2
        "plain".toList = .ok (some foo_layout) :=
  ⟨(include_failure_skipped (sample_env 512 256 failing_include_files) include_table 0
      "top".toList "plain".toList "top".toList "plain".toList
      "include missing\nfoo 5\n".toList "foo 5\n".toList "include missing".toList
      [] ["foo 5".toList]
      (by decide) (by decide) (by decide) (by decide) (by decide) (by decide) (by decide)
      (by decide)).2.2.2,
   rfl⟩

/-- C14: a skipped line (a line that starts with `#` or with `map `, a line without a
space, an assignment line whose name resolves to 0) leaves the layout as it is:
the loop goes on with the same direct table, overflow table and ranges, and such
a line makes no assignment.  Parsing a keymap gives what parsing the keymap
without its skipped lines gives. -/
theorem skipped_lines_frame (E : Env) (table : List (List Char × Int)) :
    (∀ (recurse : List Char → kbd_layout_t → Except Fault kbd_layout_t)
        (line : List Char) (more : List (List Char)) (k : kbd_layout_t),
        is_skipped table line = true →
          parse_lines E table recurse [line] k = .ok k ∧
          parse_lines E table recurse (line :: more) k =
            parse_lines E table recurse more k) ∧
      (∀ (fuel : Nat) (A A1 fa fa1 ta ta1 : List Char) (k0 : Option kbd_layout_t),
        E.qemu_find_file A = some fa → E.fopen fa = some ta →
        E.qemu_find_file A1 = some fa1 → E.fopen fa1 = some ta1 →
        read_lines ta1 = (read_lines ta).filter (fun l => !is_skipped table l) →
          parse_keyboard_layout E table fuel A k0 =
            parse_keyboard_layout E table fuel A1 k0) := by
  refine ⟨?_, ?_⟩
  · intro recurse line more k h
    exact ⟨by rw [parse_lines_skipped E table recurse line [] k h]; rfl,
      parse_lines_skipped E table recurse line more k h⟩
  · intro fuel A A1 fa fa1 ta ta1 k0 hA hoA hA1 hoA1 hl
    cases fuel with
    | zero => rfl
    | succ n =>
      rw [parse_keyboard_layout_open E table n A fa ta k0 hA hoA,
        parse_keyboard_layout_open E table n A1 fa1 ta1 k0 hA1 hoA1, hl,
        parse_lines_filter]

/-- C14 (witness): in `skipped_files` the keymap `top`, with a comment, a `map` line, a
line without a space and an unknown name, gives what the keymap `stripped`
without these lines gives. -/
theorem skipped_lines_frame_witness :
    is_skipped include_table "# comment".toList = true ∧
      is_skipped include_table "map 0x409".toList = true ∧
      is_skipped include_table "nospace".toList = true ∧
      is_skipped include_table "unknown 7".toList = true ∧
      is_skipped include_table "foo 5".toList = false ∧
      parse_keyboard_layout (sample_env 512 256 skipped_files) include_table 1 "top".toList
          none =
        parse_keyboard_layout (sample_env 512 256 skipped_files) include_table 1
          "stripped".toList none ∧
      parse_keyboard_layout (sample_env 512 256 skipped_files) include_table 1
        "stripped".toList none = .ok (some foo_layout) :=
  ⟨by decide, by decide, by decide, by decide, by decide,
   (skipped_lines_frame (sample_env 512 256 skipped_files) include_table).2 1
     "top".toList "stripped".toList "top".toList "stripped".toList
     "# comment\nmap 0x409\nnospace\nunknown 7\nfoo 5\n# end\n".toList "foo 5\n".toList none
     (by decide) (by decide) (by decide) (by decide) (by decide),
   rfl⟩

end Keymaps
